import Mathlib

/-!
Verification of the AutoNestCut core (geometry primitives, board free-space
model, and the nesting loop) against its natural-language specification.

The C++ sources in src/Extension/AutoNestCut/cpp/src are shallowly embedded:
doubles become exact rationals, mutation becomes explicit state passing, and
the while loop of the nester becomes fuel-indexed structural recursion (the
fuel supplied by nest_parts is shown sufficient below).
-/

namespace AutoNestCut

/-- Axis-aligned rectangle, from geometry.h: fields x, y, width, height. -/
structure Rect where
  x : ℚ
  y : ℚ
  width : ℚ
  height : ℚ
  deriving DecidableEq

/-- Right edge, from Rect::right in geometry.h. -/
def Rect.right (r : Rect) : ℚ := r.x + r.width

/-- Bottom edge, from Rect::bottom in geometry.h. -/
def Rect.bottom (r : Rect) : ℚ := r.y + r.height

/-- Area, from Rect::area in geometry.h. -/
def Rect.area (r : Rect) : ℚ := r.width * r.height

/-- Validity test, from Rect::is_valid in geometry.h: positive width and height. -/
def Rect.is_valid (r : Rect) : Bool :=
  decide (0 < r.width) && decide (0 < r.height)

/-- Half-open overlap test, from intersects in geometry.cpp. -/
def intersects (r1 r2 : Rect) : Bool :=
  !(decide (r1.right ≤ r2.x) || decide (r2.right ≤ r1.x) ||
    decide (r1.bottom ≤ r2.y) || decide (r2.bottom ≤ r1.y))

/-- Rectangle subtraction, from subtract_rect in geometry.cpp: remove
to_subtract from original, yielding up to four residual rectangles. -/
def subtract_rect (original to_subtract : Rect) : List Rect :=
  let ix1 := max original.x to_subtract.x
  let iy1 := max original.y to_subtract.y
  let ix2 := min original.right to_subtract.right
  let iy2 := min original.bottom to_subtract.bottom
  if ix2 ≤ ix1 ∨ iy2 ≤ iy1 then
    [original]
  else
    (if original.x < ix1 then
      [Rect.mk original.x original.y (ix1 - original.x) original.height] else []) ++
    ((if original.right > ix2 then
      [Rect.mk ix2 original.y (original.right - ix2) original.height] else []) ++
    ((if original.y < iy1 then
      [Rect.mk ix1 original.y (ix2 - ix1) (iy1 - original.y)] else []) ++
    (if original.bottom > iy2 then
      [Rect.mk ix1 iy2 (ix2 - ix1) (original.bottom - iy2)] else [])))

/-- Intersection box of two rectangles (the ix1/iy1/ix2/iy2 bounds computed
at the top of subtract_rect). -/
def inter_rect (o c : Rect) : Rect :=
  { x := max o.x c.x, y := max o.y c.y,
    width := min o.right c.right - max o.x c.x,
    height := min o.bottom c.bottom - max o.y c.y }

/-- Left residual piece of subtract_rect: full original height. -/
def left_piece (o c : Rect) : Rect :=
  { x := o.x, y := o.y, width := max o.x c.x - o.x, height := o.height }

/-- Right residual piece of subtract_rect: full original height. -/
def right_piece (o c : Rect) : Rect :=
  { x := min o.right c.right, y := o.y,
    width := o.right - min o.right c.right, height := o.height }

/-- Bottom residual piece of subtract_rect: x clipped to the intersection. -/
def bottom_piece (o c : Rect) : Rect :=
  { x := max o.x c.x, y := o.y,
    width := min o.right c.right - max o.x c.x, height := max o.y c.y - o.y }

/-- Top residual piece of subtract_rect: x clipped to the intersection. -/
def top_piece (o c : Rect) : Rect :=
  { x := max o.x c.x, y := min o.bottom c.bottom,
    width := min o.right c.right - max o.x c.x,
    height := o.bottom - min o.bottom c.bottom }

/-- Containment of one rectangle in another (used to state C10). -/
def rect_within (outer inner : Rect) : Prop :=
  outer.x ≤ inner.x ∧ inner.right ≤ outer.right ∧
  outer.y ≤ inner.y ∧ inner.bottom ≤ outer.bottom

lemma is_valid_iff (r : Rect) : r.is_valid = true ↔ 0 < r.width ∧ 0 < r.height := by
  simp [Rect.is_valid]

lemma intersects_eq_false_iff (r1 r2 : Rect) :
    intersects r1 r2 = false ↔
      (r1.right ≤ r2.x ∨ r2.right ≤ r1.x ∨ r1.bottom ≤ r2.y ∨ r2.bottom ≤ r1.y) := by
  simp only [intersects, Bool.not_eq_false', Bool.or_eq_true, decide_eq_true_eq]
  tauto

lemma intersects_eq_true_iff (r1 r2 : Rect) :
    intersects r1 r2 = true ↔
      (r2.x < r1.right ∧ r1.x < r2.right ∧ r2.y < r1.bottom ∧ r1.y < r2.bottom) := by
  simp [intersects, not_or]
  tauto

lemma disj_symm {a b : Rect} (h : intersects a b = false) : intersects b a = false := by
  rw [intersects_eq_false_iff] at h ⊢
  tauto

/-- Disjointness is monotone under containment. -/
lemma disj_mono {A B a b : Rect} (ha : rect_within A a) (hb : rect_within B b)
    (h : intersects A B = false) : intersects a b = false := by
  rw [intersects_eq_false_iff] at h ⊢
  obtain ⟨ha1, ha2, ha3, ha4⟩ := ha
  obtain ⟨hb1, hb2, hb3, hb4⟩ := hb
  rcases h with h | h | h | h
  · exact Or.inl (by linarith)
  · exact Or.inr (Or.inl (by linarith))
  · exact Or.inr (Or.inr (Or.inl (by linarith)))
  · exact Or.inr (Or.inr (Or.inr (by linarith)))

lemma rect_within_refl (r : Rect) : rect_within r r :=
  ⟨le_refl _, le_refl _, le_refl _, le_refl _⟩

lemma rect_within_trans {a b c : Rect} (h1 : rect_within a b) (h2 : rect_within b c) :
    rect_within a c := by
  obtain ⟨x1, x2, x3, x4⟩ := h1
  obtain ⟨y1, y2, y3, y4⟩ := h2
  exact ⟨le_trans x1 y1, le_trans y2 x2, le_trans x3 y3, le_trans y4 x4⟩

/-- In the overlapping case the empty-intersection guard of subtract_rect is false. -/
lemma inter_nonempty_of_intersects {R C : Rect}
    (hR : R.is_valid = true) (hC : C.is_valid = true) (h : intersects R C = true) :
    max R.x C.x < min R.right C.right ∧ max R.y C.y < min R.bottom C.bottom := by
  rw [is_valid_iff] at hR hC
  rw [intersects_eq_true_iff] at h
  obtain ⟨h1, h2, h3, h4⟩ := h
  constructor
  · rw [max_lt_iff]
    constructor
    · rw [lt_min_iff]
      exact ⟨by simp [Rect.right]; linarith [hR.1], h2⟩
    · rw [lt_min_iff]
      exact ⟨h1, by simp [Rect.right]; linarith [hC.1]⟩
  · rw [max_lt_iff]
    constructor
    · rw [lt_min_iff]
      exact ⟨by simp [Rect.bottom]; linarith [hR.2], h4⟩
    · rw [lt_min_iff]
      exact ⟨h3, by simp [Rect.bottom]; linarith [hC.2]⟩

/-- If the rectangles do not intersect, the empty-intersection guard holds. -/
lemma inter_empty_of_not_intersects {R C : Rect}
    (h : intersects R C = false) :
    min R.right C.right ≤ max R.x C.x ∨ min R.bottom C.bottom ≤ max R.y C.y := by
  rw [intersects_eq_false_iff] at h
  rcases h with h | h | h | h
  · exact Or.inl (le_trans (min_le_left _ _) (le_trans h (le_max_right _ _)))
  · exact Or.inl (le_trans (min_le_right _ _) (le_trans h (le_max_left _ _)))
  · exact Or.inr (le_trans (min_le_left _ _) (le_trans h (le_max_right _ _)))
  · exact Or.inr (le_trans (min_le_right _ _) (le_trans h (le_max_left _ _)))

/-- Unfolding of subtract_rect in the overlapping case. -/
lemma subtract_rect_of_overlap {R C : Rect}
    (hx : max R.x C.x < min R.right C.right) (hy : max R.y C.y < min R.bottom C.bottom) :
    subtract_rect R C =
      (if R.x < max R.x C.x then [left_piece R C] else []) ++
      ((if R.right > min R.right C.right then [right_piece R C] else []) ++
      ((if R.y < max R.y C.y then [bottom_piece R C] else []) ++
      (if R.bottom > min R.bottom C.bottom then [top_piece R C] else []))) := by
  rw [subtract_rect]
  rw [if_neg (by push_neg; exact ⟨hx, hy⟩)]
  rfl

lemma cond_singleton_sublist {p : Prop} [Decidable p] (a : Rect) :
    ((if p then [a] else []) : List Rect).Sublist [a] := by
  split
  · exact List.Sublist.refl _
  · exact List.nil_sublist _

lemma cond_cons_sublist {p : Prop} [Decidable p] (a : Rect) {l1 l2 : List Rect}
    (h : l1.Sublist l2) : ((if p then [a] else []) ++ l1).Sublist (a :: l2) := by
  split
  · exact List.Sublist.cons₂ a h
  · exact List.Sublist.cons a h

lemma mem_cond_append {p : Prop} [Decidable p] {a r : Rect} {l : List Rect} :
    (r ∈ (if p then [a] else []) ++ l) ↔ (p ∧ r = a) ∨ r ∈ l := by
  by_cases hp : p <;> simp [hp]

/-- The pieces of subtract_rect, in the overlapping case, form a sublist of the
fixed sequence left, right, bottom, top. -/
lemma subtract_rect_sublist_pieces {R C : Rect}
    (hx : max R.x C.x < min R.right C.right) (hy : max R.y C.y < min R.bottom C.bottom) :
    (subtract_rect R C).Sublist
      [left_piece R C, right_piece R C, bottom_piece R C, top_piece R C] := by
  rw [subtract_rect_of_overlap hx hy]
  exact cond_cons_sublist _ (cond_cons_sublist _ (cond_cons_sublist _
    (cond_singleton_sublist _)))

/-- Unfolding of subtract_rect in the empty-intersection case. -/
lemma subtract_rect_of_empty {R C : Rect}
    (hg : min R.right C.right ≤ max R.x C.x ∨ min R.bottom C.bottom ≤ max R.y C.y) :
    subtract_rect R C = [R] := by
  rw [subtract_rect]
  rw [if_pos hg]

lemma mem_cond {p : Prop} [Decidable p] {a r : Rect} :
    (r ∈ (if p then [a] else []) : Prop) ↔ p ∧ r = a := by
  by_cases hp : p <;> simp [hp]

/-- Every member of subtract_rect (overlap case) is one of the four pieces,
together with its emission guard. -/
lemma mem_subtract_rect_cases {R C r : Rect}
    (hx : max R.x C.x < min R.right C.right) (hy : max R.y C.y < min R.bottom C.bottom)
    (hr : r ∈ subtract_rect R C) :
    (R.x < max R.x C.x ∧ r = left_piece R C) ∨
    (min R.right C.right < R.right ∧ r = right_piece R C) ∨
    (R.y < max R.y C.y ∧ r = bottom_piece R C) ∨
    (min R.bottom C.bottom < R.bottom ∧ r = top_piece R C) := by
  rw [subtract_rect_of_overlap hx hy] at hr
  rcases mem_cond_append.1 hr with h | hr
  · exact Or.inl h
  rcases mem_cond_append.1 hr with h | hr
  · exact Or.inr (Or.inl h)
  rcases mem_cond_append.1 hr with h | hr
  · exact Or.inr (Or.inr (Or.inl h))
  exact Or.inr (Or.inr (Or.inr (mem_cond.1 hr)))

/-- Every piece returned by subtract_rect is contained in the original. -/
lemma subtract_rect_within (R C : Rect) : ∀ r ∈ subtract_rect R C, rect_within R r := by
  intro r hr
  by_cases hg : min R.right C.right ≤ max R.x C.x ∨ min R.bottom C.bottom ≤ max R.y C.y
  · rw [subtract_rect_of_empty hg] at hr
    simp at hr
    subst hr
    exact rect_within_refl _
  · push_neg at hg
    obtain ⟨hgx, hgy⟩ := hg
    have hxl := le_max_left R.x C.x
    have hxr := min_le_left R.right C.right
    have hyl := le_max_left R.y C.y
    have hyr := min_le_left R.bottom C.bottom
    simp only [Rect.right, Rect.bottom] at hgx hgy hxr hyr
    rcases mem_subtract_rect_cases hgx hgy hr with
      ⟨hgd, rfl⟩ | ⟨hgd, rfl⟩ | ⟨hgd, rfl⟩ | ⟨hgd, rfl⟩
    · simp only [rect_within, left_piece, Rect.right, Rect.bottom]
      refine ⟨?_, ?_, ?_, ?_⟩ <;> linarith
    · simp only [Rect.right] at hgd
      simp only [rect_within, right_piece, Rect.right, Rect.bottom]
      refine ⟨?_, ?_, ?_, ?_⟩ <;> linarith
    · simp only [rect_within, bottom_piece, Rect.right, Rect.bottom]
      refine ⟨?_, ?_, ?_, ?_⟩ <;> linarith
    · simp only [Rect.bottom] at hgd
      simp only [rect_within, top_piece, Rect.right, Rect.bottom]
      refine ⟨?_, ?_, ?_, ?_⟩ <;> linarith

/-- Every piece returned by subtract_rect is disjoint from the subtracted
rectangle (half-open sense). -/
lemma subtract_rect_disj_cut {R C : Rect}
    (hx : max R.x C.x < min R.right C.right) (hy : max R.y C.y < min R.bottom C.bottom) :
    ∀ r ∈ subtract_rect R C, intersects r C = false := by
  intro r hr
  rcases mem_subtract_rect_cases hx hy hr with
    ⟨hgd, rfl⟩ | ⟨hgd, rfl⟩ | ⟨hgd, rfl⟩ | ⟨hgd, rfl⟩
  · -- the left piece is emitted only when the intersection starts at C.x
    have hmax : max R.x C.x = C.x := by
      rcases max_choice R.x C.x with h | h
      · rw [h] at hgd
        exact absurd hgd (lt_irrefl _)
      · exact h
    rw [intersects_eq_false_iff]
    left
    simp [left_piece, Rect.right]
    linarith [le_of_eq hmax]
  · -- the right piece is emitted only when the intersection ends at C.right
    have hmin : min R.right C.right = C.right := by
      rcases min_choice R.right C.right with h | h
      · rw [h] at hgd
        exact absurd hgd (lt_irrefl _)
      · exact h
    rw [intersects_eq_false_iff]
    right; left
    simp [right_piece]
    linarith [le_of_eq hmin]
  · -- the bottom piece is emitted only when the intersection starts at C.y
    have hmax : max R.y C.y = C.y := by
      rcases max_choice R.y C.y with h | h
      · rw [h] at hgd
        exact absurd hgd (lt_irrefl _)
      · exact h
    rw [intersects_eq_false_iff]
    right; right; left
    simp [bottom_piece, Rect.bottom]
    linarith [le_of_eq hmax]
  · -- the top piece is emitted only when the intersection ends at C.bottom
    have hmin : min R.bottom C.bottom = C.bottom := by
      rcases min_choice R.bottom C.bottom with h | h
      · rw [h] at hgd
        exact absurd hgd (lt_irrefl _)
      · exact h
    rw [intersects_eq_false_iff]
    right; right; right
    simp [top_piece]
    linarith [le_of_eq hmin]

/-- The four candidate pieces are pairwise disjoint (half-open sense). -/
lemma pieces_pairwise {R C : Rect}
    (hx : max R.x C.x < min R.right C.right) (hy : max R.y C.y < min R.bottom C.bottom) :
    List.Pairwise (fun a b => intersects a b = false)
      [left_piece R C, right_piece R C, bottom_piece R C, top_piece R C] := by
  simp only [Rect.right, Rect.bottom] at hx hy
  have d1 : intersects (left_piece R C) (right_piece R C) = false := by
    rw [intersects_eq_false_iff]
    left
    simp only [left_piece, right_piece, Rect.right]
    linarith
  have d2 : intersects (left_piece R C) (bottom_piece R C) = false := by
    rw [intersects_eq_false_iff]
    left
    simp only [left_piece, bottom_piece, Rect.right]
    linarith
  have d3 : intersects (left_piece R C) (top_piece R C) = false := by
    rw [intersects_eq_false_iff]
    left
    simp only [left_piece, top_piece, Rect.right]
    linarith
  have d4 : intersects (right_piece R C) (bottom_piece R C) = false := by
    rw [intersects_eq_false_iff]
    right; left
    simp only [right_piece, bottom_piece, Rect.right]
    linarith
  have d5 : intersects (right_piece R C) (top_piece R C) = false := by
    rw [intersects_eq_false_iff]
    right; left
    simp only [right_piece, top_piece, Rect.right]
    linarith
  have d6 : intersects (bottom_piece R C) (top_piece R C) = false := by
    rw [intersects_eq_false_iff]
    right; right; left
    simp only [bottom_piece, top_piece, Rect.bottom]
    linarith
  refine List.Pairwise.cons ?_ (List.Pairwise.cons ?_ (List.Pairwise.cons ?_
    (List.pairwise_singleton _ _)))
  · intro b hb
    rcases List.mem_cons.1 hb with rfl | hb
    · exact d1
    rcases List.mem_cons.1 hb with rfl | hb
    · exact d2
    rcases List.mem_cons.1 hb with rfl | hb
    · exact d3
    exact absurd hb (List.not_mem_nil b)
  · intro b hb
    rcases List.mem_cons.1 hb with rfl | hb
    · exact d4
    rcases List.mem_cons.1 hb with rfl | hb
    · exact d5
    exact absurd hb (List.not_mem_nil b)
  · intro b hb
    rcases List.mem_cons.1 hb with rfl | hb
    · exact d6
    exact absurd hb (List.not_mem_nil b)

lemma sum_map_cond {p : Prop} [Decidable p] (a : Rect) :
    (((if p then [a] else []) : List Rect).map Rect.area).sum = if p then a.area else 0 := by
  split <;> simp

/-- Area bookkeeping of subtract_rect in the overlap case: the residual pieces
sum to the original area minus the intersection area. -/
lemma subtract_rect_area {R C : Rect}
    (hx : max R.x C.x < min R.right C.right) (hy : max R.y C.y < min R.bottom C.bottom) :
    ((subtract_rect R C).map Rect.area).sum = R.area - (inter_rect R C).area := by
  rw [subtract_rect_of_overlap hx hy]
  simp only [List.map_append, List.sum_append, sum_map_cond]
  have e1 : (if R.x < max R.x C.x then (left_piece R C).area else 0) =
      (left_piece R C).area := by
    split
    · rfl
    · have hx1 : max R.x C.x = R.x :=
        le_antisymm (not_lt.1 (by assumption)) (le_max_left _ _)
      simp [left_piece, Rect.area, hx1]
  have e2 : (if R.right > min R.right C.right then (right_piece R C).area else 0) =
      (right_piece R C).area := by
    split
    · rfl
    · have hx2 : min R.right C.right = R.right :=
        le_antisymm (min_le_left _ _) (not_lt.1 (by assumption))
      simp [right_piece, Rect.area, hx2]
  have e3 : (if R.y < max R.y C.y then (bottom_piece R C).area else 0) =
      (bottom_piece R C).area := by
    split
    · rfl
    · have hy1 : max R.y C.y = R.y :=
        le_antisymm (not_lt.1 (by assumption)) (le_max_left _ _)
      simp [bottom_piece, Rect.area, hy1]
  have e4 : (if R.bottom > min R.bottom C.bottom then (top_piece R C).area else 0) =
      (top_piece R C).area := by
    split
    · rfl
    · have hy2 : min R.bottom C.bottom = R.bottom :=
        le_antisymm (min_le_left _ _) (not_lt.1 (by assumption))
      simp [top_piece, Rect.area, hy2]
  rw [e1, e2, e3, e4]
  simp only [left_piece, right_piece, bottom_piece, top_piece, inter_rect,
    Rect.area, Rect.right, Rect.bottom]
  ring

/-- C2: for every pair of valid rectangles, subtract_rect returns exactly the
original when the two do not overlap per intersects; otherwise it returns at
most four rectangles, each of positive area, emitted in the fixed order left
piece (full height), right piece (full height), bottom piece (x clipped to the
intersection), top piece (x clipped to the intersection). -/
theorem subtract_rect_cases (R C : Rect) (hR : R.is_valid = true) (hC : C.is_valid = true) :
    (intersects R C = false → subtract_rect R C = [R]) ∧
    (intersects R C = true →
      (subtract_rect R C).length ≤ 4 ∧
      (∀ r ∈ subtract_rect R C, r.is_valid = true) ∧
      (subtract_rect R C).Sublist
        [left_piece R C, right_piece R C, bottom_piece R C, top_piece R C]) := by
  constructor
  · intro h
    exact subtract_rect_of_empty (inter_empty_of_not_intersects h)
  · intro h
    obtain ⟨hx, hy⟩ := inter_nonempty_of_intersects hR hC h
    refine ⟨?_, ?_, subtract_rect_sublist_pieces hx hy⟩
    · simpa using (subtract_rect_sublist_pieces hx hy).length_le
    · intro r hr
      rw [is_valid_iff] at hR
      rcases mem_subtract_rect_cases hx hy hr with
        ⟨hgd, rfl⟩ | ⟨hgd, rfl⟩ | ⟨hgd, rfl⟩ | ⟨hgd, rfl⟩
      · rw [is_valid_iff]
        constructor
        · simp only [left_piece]
          linarith
        · simp only [left_piece]
          exact hR.2
      · rw [is_valid_iff]
        constructor
        · simp only [right_piece]
          linarith
        · simp only [right_piece]
          exact hR.2
      · rw [is_valid_iff]
        constructor
        · simp only [bottom_piece]
          linarith
        · simp only [bottom_piece]
          linarith
      · rw [is_valid_iff]
        constructor
        · simp only [top_piece]
          linarith
        · simp only [top_piece]
          linarith

/-- Witness for subtract_rect_cases at concrete overlapping rectangles. -/
theorem subtract_rect_cases_witness :
    (Rect.mk 0 0 10 10).is_valid = true ∧ (Rect.mk 5 5 10 10).is_valid = true ∧
    ((intersects (Rect.mk 0 0 10 10) (Rect.mk 5 5 10 10) = false →
        subtract_rect (Rect.mk 0 0 10 10) (Rect.mk 5 5 10 10) = [Rect.mk 0 0 10 10]) ∧
     (intersects (Rect.mk 0 0 10 10) (Rect.mk 5 5 10 10) = true →
        (subtract_rect (Rect.mk 0 0 10 10) (Rect.mk 5 5 10 10)).length ≤ 4 ∧
        (∀ r ∈ subtract_rect (Rect.mk 0 0 10 10) (Rect.mk 5 5 10 10), r.is_valid = true) ∧
        (subtract_rect (Rect.mk 0 0 10 10) (Rect.mk 5 5 10 10)).Sublist
          [left_piece (Rect.mk 0 0 10 10) (Rect.mk 5 5 10 10),
           right_piece (Rect.mk 0 0 10 10) (Rect.mk 5 5 10 10),
           bottom_piece (Rect.mk 0 0 10 10) (Rect.mk 5 5 10 10),
           top_piece (Rect.mk 0 0 10 10) (Rect.mk 5 5 10 10)])) :=
  ⟨by with_unfolding_all rfl, by with_unfolding_all rfl,
   subtract_rect_cases (Rect.mk 0 0 10 10) (Rect.mk 5 5 10 10)
     (by with_unfolding_all rfl) (by with_unfolding_all rfl)⟩

/-- C6: intersects is a half-open overlap test: two rectangles touching only at
an edge or corner (one edge coordinate equal to the other rectangle's opposite
coordinate) do not intersect, and in particular Rect(0,0,10,10) and
Rect(10,0,10,10) do not intersect. -/
theorem intersects_half_open (r1 r2 : Rect)
    (h : r1.right = r2.x ∨ r2.right = r1.x ∨ r1.bottom = r2.y ∨ r2.bottom = r1.y) :
    intersects r1 r2 = false ∧
    intersects (Rect.mk 0 0 10 10) (Rect.mk 10 0 10 10) = false := by
  constructor
  · rw [intersects_eq_false_iff]
    rcases h with h | h | h | h
    · exact Or.inl (le_of_eq h)
    · exact Or.inr (Or.inl (le_of_eq h))
    · exact Or.inr (Or.inr (Or.inl (le_of_eq h)))
    · exact Or.inr (Or.inr (Or.inr (le_of_eq h)))
  · with_unfolding_all rfl

/-- Witness for intersects_half_open at the two concrete rectangles of C6. -/
theorem intersects_half_open_witness :
    ((Rect.mk 0 0 10 10).right = (Rect.mk 10 0 10 10).x ∨
     (Rect.mk 10 0 10 10).right = (Rect.mk 0 0 10 10).x ∨
     (Rect.mk 0 0 10 10).bottom = (Rect.mk 10 0 10 10).y ∨
     (Rect.mk 10 0 10 10).bottom = (Rect.mk 0 0 10 10).y) ∧
    (intersects (Rect.mk 0 0 10 10) (Rect.mk 10 0 10 10) = false ∧
     intersects (Rect.mk 0 0 10 10) (Rect.mk 10 0 10 10) = false) :=
  ⟨Or.inl (by with_unfolding_all rfl),
   intersects_half_open (Rect.mk 0 0 10 10) (Rect.mk 10 0 10 10)
     (Or.inl (by with_unfolding_all rfl))⟩

/-- C10: for valid overlapping rectangles, the pieces of subtract_rect are
pairwise disjoint, each is contained in the original, and their areas sum to
the original area minus the intersection area. -/
theorem subtract_rect_exact (R C : Rect) (hR : R.is_valid = true) (hC : C.is_valid = true)
    (h : intersects R C = true) :
    (subtract_rect R C).Pairwise (fun a b => intersects a b = false) ∧
    (∀ r ∈ subtract_rect R C, rect_within R r) ∧
    ((subtract_rect R C).map Rect.area).sum = R.area - (inter_rect R C).area := by
  obtain ⟨hx, hy⟩ := inter_nonempty_of_intersects hR hC h
  exact ⟨(pieces_pairwise hx hy).sublist (subtract_rect_sublist_pieces hx hy),
    subtract_rect_within R C, subtract_rect_area hx hy⟩

/-- Witness for subtract_rect_exact at concrete overlapping rectangles. -/
theorem subtract_rect_exact_witness :
    (Rect.mk 0 0 10 10).is_valid = true ∧ (Rect.mk 5 5 10 10).is_valid = true ∧
    intersects (Rect.mk 0 0 10 10) (Rect.mk 5 5 10 10) = true ∧
    ((subtract_rect (Rect.mk 0 0 10 10) (Rect.mk 5 5 10 10)).Pairwise
        (fun a b => intersects a b = false) ∧
     (∀ r ∈ subtract_rect (Rect.mk 0 0 10 10) (Rect.mk 5 5 10 10),
        rect_within (Rect.mk 0 0 10 10) r) ∧
     ((subtract_rect (Rect.mk 0 0 10 10) (Rect.mk 5 5 10 10)).map Rect.area).sum =
        (Rect.mk 0 0 10 10).area -
          (inter_rect (Rect.mk 0 0 10 10) (Rect.mk 5 5 10 10)).area) :=
  ⟨by with_unfolding_all rfl, by with_unfolding_all rfl, by with_unfolding_all rfl,
   subtract_rect_exact (Rect.mk 0 0 10 10) (Rect.mk 5 5 10 10)
     (by with_unfolding_all rfl) (by with_unfolding_all rfl) (by with_unfolding_all rfl)⟩

/-- Absolute value as computed by std::abs on the embedded rationals. -/
def qabs (q : ℚ) : ℚ := if q < 0 then -q else q

/-- Part record, from nesting.h: identity and base dimensions plus the
placement-result fields filled in by the nesting algorithm. -/
structure Part where
  id : String
  material : String
  width : ℚ
  height : ℚ
  grain_direction : String
  allowed_rotations : List Int
  x : ℚ := 0
  y : ℚ := 0
  rotation : Int := 0
  board_id : Int := -1
  deriving DecidableEq

/-- Part area, from Part::area in nesting.h. -/
def Part.area (p : Part) : ℚ := p.width * p.height

/-- Dimensions after rotation, from Part::get_rotated_dimensions in nesting.h:
90 and 270 degrees swap width and height. -/
def Part.get_rotated_dimensions (p : Part) (rot : Int) : ℚ × ℚ :=
  if rot = 90 ∨ rot = 270 then (p.height, p.width) else (p.width, p.height)

/-- Board record, from nesting.h. Placed parts are stored by value: the C++
code stores pointers into the caller-owned part vector, and a part is never
mutated after it has been placed, so the stored values are stable. -/
structure Board where
  id : Int
  material : String
  width : ℚ
  height : ℚ
  free_rectangles : List Rect
  placed_parts : List Part
  deriving DecidableEq

/-- Board constructor, from nesting.h: starts with one full free rectangle. -/
def Board.new (id : Int) (mat : String) (w h : ℚ) : Board :=
  { id := id, material := mat, width := w, height := h,
    free_rectangles := [Rect.mk 0 0 w h], placed_parts := [] }

/-- Comparator used to sort free rectangles in Board::add_part: by y then x,
treating y values within 0.01 as equal. -/
def rect_before (a b : Rect) : Bool :=
  if qabs (a.y - b.y) < 1/100 then decide (a.x < b.x) else decide (a.y < b.y)

/-- Search loop of Board::find_best_position over the free-rectangle list:
first rectangle in list order that fits the effective size and stays within
board bounds. -/
def find_pos_loop (ew eh bw bh : ℚ) : List Rect → Option (ℚ × ℚ)
  | [] => none
  | rect :: rest =>
    if ew ≤ rect.width ∧ eh ≤ rect.height then
      if rect.x + ew ≤ bw ∧ rect.y + eh ≤ bh then
        some (rect.x, rect.y)
      else
        find_pos_loop ew eh bw bh rest
    else
      find_pos_loop ew eh bw bh rest

/-- Board::find_best_position from nesting.cpp: a special case returns (0,0)
for an exact full-sheet fit on an empty board (0.1 tolerance, kerf ignored);
otherwise scan free rectangles for the kerf-expanded size. -/
def Board.find_best_position (b : Board) (part_width part_height kerf : ℚ) :
    Option (ℚ × ℚ) :=
  if b.placed_parts = [] ∧ qabs (part_width - b.width) < 1/10 ∧
      qabs (part_height - b.height) < 1/10 then
    some (0, 0)
  else
    find_pos_loop (part_width + kerf) (part_height + kerf) b.width b.height
      b.free_rectangles

/-- Free-rectangle update loop of Board::add_part: every free rectangle that
intersects the placed region is replaced by the valid pieces of its
subtraction, the others pass through unchanged. -/
def update_free (free : List Rect) (placed_rect : Rect) : List Rect :=
  free.flatMap (fun free_rect =>
    if intersects free_rect placed_rect then
      (subtract_rect free_rect placed_rect).filter (fun r => r.is_valid)
    else
      [free_rect])

/-- Board::add_part from nesting.cpp: record the position and board id on the
part, append it to placed_parts, subtract the kerf-expanded footprint from
every intersecting free rectangle (keeping only valid pieces), and re-sort the
free rectangles by y then x. Returns the updated board and part. -/
def Board.add_part (b : Board) (part : Part) (x y kerf : ℚ) : Board × Part :=
  let part := { part with x := x, y := y, board_id := b.id }
  let wh := part.get_rotated_dimensions part.rotation
  let placed_rect := Rect.mk x y (wh.1 + kerf) (wh.2 + kerf)
  ({ b with
      placed_parts := b.placed_parts ++ [part],
      free_rectangles :=
        List.insertionSort (fun a b => rect_before a b = true)
          (update_free b.free_rectangles placed_rect) },
   part)

/-- Board::used_area from nesting.cpp: sum of placed parts' unrotated areas. -/
def Board.used_area (b : Board) : ℚ := (b.placed_parts.map Part.area).sum

/-- Board::waste_percentage from nesting.cpp. -/
def Board.waste_percentage (b : Board) : ℚ :=
  let total := b.width * b.height
  if total = 0 then 0 else ((total - b.used_area) / total) * 100

/-- Nesting settings, from nesting.h. -/
structure Settings where
  kerf_width : ℚ := 3
  allow_rotation : Bool := true
  timeout_ms : Int := 60000

/-- Rotation loop of Nester::try_place_part: try each allowed rotation in
order, mutating the rotation tag, and commit the first that yields a
position. Returns the committed board and part on success, and always the
part as mutated by the loop. -/
def try_rotations (kerf : ℚ) (board : Board) : Part → List Int →
    Option (Board × Part) × Part
  | p, [] => (none, p)
  | p, rot :: rest =>
    let p1 := { p with rotation := rot }
    let wh := p1.get_rotated_dimensions rot
    match board.find_best_position wh.1 wh.2 kerf with
    | some pos => (some (board.add_part p1 pos.1 pos.2 kerf), p1)
    | none => try_rotations kerf board p1 rest

/-- Nester::try_place_part from nesting.cpp: remember the original width,
height and rotation, try the allowed rotations in order, and on failure
restore the remembered fields. Returns (success, part after the call, board
after the call). -/
def try_place_part (s : Settings) (part : Part) (board : Board) :
    Bool × Part × Board :=
  let original_width := part.width
  let original_height := part.height
  let original_rotation := part.rotation
  match try_rotations s.kerf_width board part part.allowed_rotations with
  | (some bp, _) => (true, bp.2, bp.1)
  | (none, pmut) =>
    (false,
     { pmut with
        width := original_width, height := original_height,
        rotation := original_rotation },
     board)

/-- Placement pass of Nester::nest_parts over the current queue: parts that
place successfully go onto the board, failures are collected in order for the
next board. -/
def place_pass (s : Settings) : Board → List Part → Board × List Part
  | board, [] => (board, [])
  | board, p :: rest =>
    let r := try_place_part s p board
    let rr := place_pass s r.2.2 rest
    cond r.1 rr (rr.1, r.2.1 :: rr.2)

/-- Diagnostic surfaced on the Unplaceable condition (the stderr report of
Nester::nest_parts): offending part id and dimensions plus board dimensions. -/
structure Diag where
  part_id : String
  part_width : ℚ
  part_height : ℚ
  board_width : ℚ
  board_height : ℚ
  deriving DecidableEq

/-- Board loop of Nester::nest_parts, with explicit fuel standing for the
C++ while loop. Each iteration opens a new board, runs a placement pass, and
either stops with a diagnostic when a fresh board stays empty (the empty board
is discarded) or continues with the failed parts. Fuel equal to the queue
length is always sufficient, as proved below. Returns the completed boards,
the parts not placed on any returned board, and the optional diagnostic. -/
def board_loop (s : Settings) (material : String) (bw bh : ℚ) :
    Nat → Nat → List Part → List Board × List Part × Option Diag
  | _, _, [] => ([], [], none)
  | 0, _, p :: rest => ([], p :: rest, none)
  | fuel + 1, board_count, p :: rest =>
    let board := Board.new (Int.ofNat (board_count + 1)) material bw bh
    let res := place_pass s board (p :: rest)
    if res.1.placed_parts = [] then
      ([], res.2, some (Diag.mk p.id p.width p.height bw bh))
    else
      let nxt := board_loop s material bw bh fuel (board_count + 1) res.2
      (res.1 :: nxt.1, nxt.2.1, nxt.2.2)

/-- Nester::nest_parts from nesting.cpp: sort parts by descending area
(std::sort with an unspecified tie order, modelled as a stable sort) and run
the board loop on the sorted queue. -/
def nest_parts (s : Settings) (parts : List Part) (material : String) (bw bh : ℚ) :
    List Board × List Part × Option Diag :=
  let sorted := List.insertionSort (fun a b => Part.area b ≤ Part.area a) parts
  board_loop s material bw bh sorted.length 0 sorted

/-- Fields of a part not owned by the nesting algorithm (everything except the
placement results x, y, rotation, board_id). -/
def part_core (p : Part) : String × String × ℚ × ℚ × String × List Int :=
  (p.id, p.material, p.width, p.height, p.grain_direction, p.allowed_rotations)

/-- Qualification test of a free rectangle in find_best_position: the
effective size fits and the absolute placement stays within board bounds. -/
def fits_rect (ew eh bw bh : ℚ) (r : Rect) : Bool :=
  decide (ew ≤ r.width) && decide (eh ≤ r.height) &&
  decide (r.x + ew ≤ bw) && decide (r.y + eh ≤ bh)

lemma find_pos_loop_eq_find (ew eh bw bh : ℚ) :
    ∀ l : List Rect, find_pos_loop ew eh bw bh l =
      (l.find? (fits_rect ew eh bw bh)).map (fun r => (r.x, r.y)) := by
  intro l
  induction l with
  | nil => rfl
  | cons r rest ih =>
    by_cases h1 : ew ≤ r.width ∧ eh ≤ r.height
    · by_cases h2 : r.x + ew ≤ bw ∧ r.y + eh ≤ bh
      · have hf : fits_rect ew eh bw bh r = true := by
          simp [fits_rect]
          tauto
        rw [List.find?_cons_of_pos _ hf]
        simp only [find_pos_loop, if_pos h1, if_pos h2, Option.map_some']
      · have hf : fits_rect ew eh bw bh r = false := by
          cases hfc : fits_rect ew eh bw bh r
          · rfl
          · exfalso
            simp [fits_rect] at hfc
            exact h2 (by tauto)
        rw [List.find?_cons_of_neg _ (by simp [hf])]
        simp only [find_pos_loop, if_pos h1, if_neg h2]
        exact ih
    · have hf : fits_rect ew eh bw bh r = false := by
        cases hfc : fits_rect ew eh bw bh r
        · rfl
        · exfalso
          simp [fits_rect] at hfc
          exact h1 (by tauto)
      rw [List.find?_cons_of_neg _ (by simp [hf])]
      simp only [find_pos_loop, if_neg h1]
      exact ih

lemma find_pos_loop_some {ew eh bw bh x y : ℚ} :
    ∀ {l : List Rect}, find_pos_loop ew eh bw bh l = some (x, y) →
      ∃ r ∈ l, r.x = x ∧ r.y = y ∧ ew ≤ r.width ∧ eh ≤ r.height ∧
        r.x + ew ≤ bw ∧ r.y + eh ≤ bh := by
  intro l
  induction l with
  | nil => intro h; exact absurd h (by simp [find_pos_loop])
  | cons r rest ih =>
    intro h
    rw [find_pos_loop] at h
    by_cases h1 : ew ≤ r.width ∧ eh ≤ r.height
    · rw [if_pos h1] at h
      by_cases h2 : r.x + ew ≤ bw ∧ r.y + eh ≤ bh
      · rw [if_pos h2] at h
        refine ⟨r, List.mem_cons_self r rest, ?_⟩
        have hx : r.x = x := congrArg Prod.fst (Option.some.inj h)
        have hy : r.y = y := congrArg Prod.snd (Option.some.inj h)
        exact ⟨hx, hy, h1.1, h1.2, h2.1, h2.2⟩
      · rw [if_neg h2] at h
        obtain ⟨r2, hmem, hrest⟩ := ih h
        exact ⟨r2, List.mem_cons_of_mem r hmem, hrest⟩
    · rw [if_neg h1] at h
      obtain ⟨r2, hmem, hrest⟩ := ih h
      exact ⟨r2, List.mem_cons_of_mem r hmem, hrest⟩

/-- C3: find_best_position returns (0,0) for a full-sheet part on an empty
board (0.1 tolerance, kerf ignored); otherwise it returns the position of the
first free rectangle, in current list order, in which the kerf-expanded size
fits with the placement staying within board bounds, and no position when no
free rectangle qualifies. -/
theorem find_best_position_spec (b : Board) (pw ph kerf : ℚ) :
    (b.placed_parts = [] ∧ qabs (pw - b.width) < 1/10 ∧ qabs (ph - b.height) < 1/10 →
      b.find_best_position pw ph kerf = some (0, 0)) ∧
    (¬(b.placed_parts = [] ∧ qabs (pw - b.width) < 1/10 ∧ qabs (ph - b.height) < 1/10) →
      b.find_best_position pw ph kerf =
        (b.free_rectangles.find? (fits_rect (pw + kerf) (ph + kerf) b.width b.height)).map
          (fun r => (r.x, r.y))) := by
  constructor
  · intro h
    simp only [Board.find_best_position, if_pos h]
  · intro h
    simp only [Board.find_best_position, if_neg h]
    exact find_pos_loop_eq_find _ _ _ _ _

/-- Witness for find_best_position_spec on a concrete board, discharging the
hypothesis of its second conjunct. -/
theorem find_best_position_spec_witness :
    (¬((Board.new 1 "M" 100 100).placed_parts = [] ∧
       qabs ((50:ℚ) - (Board.new 1 "M" 100 100).width) < 1/10 ∧
       qabs ((50:ℚ) - (Board.new 1 "M" 100 100).height) < 1/10)) ∧
    (Board.new 1 "M" 100 100).find_best_position 50 50 0 =
      ((Board.new 1 "M" 100 100).free_rectangles.find?
        (fits_rect (50 + 0) (50 + 0) (Board.new 1 "M" 100 100).width
          (Board.new 1 "M" 100 100).height)).map (fun r => (r.x, r.y)) :=
  ⟨of_decide_eq_false (by with_unfolding_all rfl),
   (find_best_position_spec (Board.new 1 "M" 100 100) 50 50 0).2
     (of_decide_eq_false (by with_unfolding_all rfl))⟩

/-- Fit test for one rotation of a part against a board, as evaluated inside
the rotation loop of try_place_part. -/
def fits_rot (kerf : ℚ) (board : Board) (p : Part) (rot : Int) : Bool :=
  (board.find_best_position (p.get_rotated_dimensions rot).1
    (p.get_rotated_dimensions rot).2 kerf).isSome

lemma get_rotated_dimensions_update (p : Part) (r rot : Int) :
    Part.get_rotated_dimensions { p with rotation := r } rot =
      p.get_rotated_dimensions rot := rfl

lemma fits_rot_update (kerf : ℚ) (board : Board) (p : Part) (r : Int) :
    fits_rot kerf board { p with rotation := r } = fits_rot kerf board p := rfl

lemma update_rotation_twice (p : Part) (r r2 : Int) :
    ({ ({ p with rotation := r } : Part) with rotation := r2 } : Part) =
      { p with rotation := r2 } := rfl

/-- The part threaded through the rotation loop differs from the input at most
in its rotation tag. -/
lemma try_rotations_snd (kerf : ℚ) (board : Board) :
    ∀ (rots : List Int) (p : Part),
      (try_rotations kerf board p rots).2 = p ∨
      ∃ r, (try_rotations kerf board p rots).2 = { p with rotation := r } := by
  intro rots
  induction rots with
  | nil =>
    intro p
    exact Or.inl rfl
  | cons r rest ih =>
    intro p
    cases hopt : board.find_best_position (p.get_rotated_dimensions r).1
        (p.get_rotated_dimensions r).2 kerf with
    | some pos =>
      right
      refine ⟨r, ?_⟩
      simp only [try_rotations, get_rotated_dimensions_update]
      rw [hopt]
    | none =>
      have hstep : (try_rotations kerf board p (r :: rest)).2 =
          (try_rotations kerf board { p with rotation := r } rest).2 := by
        simp only [try_rotations, get_rotated_dimensions_update]
        rw [hopt]
      rcases ih { p with rotation := r } with h | ⟨r2, h⟩
      · right
        exact ⟨r, by rw [hstep, h]⟩
      · right
        refine ⟨r2, ?_⟩
        rw [hstep, h, update_rotation_twice]

/-- Outcome of the rotation loop, characterized by find? over the rotation
list: none when no rotation fits, and the committed add_part result for the
first fitting rotation otherwise. -/
lemma try_rotations_spec (kerf : ℚ) (board : Board) :
    ∀ (rots : List Int) (p : Part),
      (rots.find? (fits_rot kerf board p) = none →
        (try_rotations kerf board p rots).1 = none) ∧
      (∀ rot, rots.find? (fits_rot kerf board p) = some rot →
        ∃ x y, board.find_best_position (p.get_rotated_dimensions rot).1
            (p.get_rotated_dimensions rot).2 kerf = some (x, y) ∧
          (try_rotations kerf board p rots).1 =
            some (board.add_part { p with rotation := rot } x y kerf)) := by
  intro rots
  induction rots with
  | nil =>
    intro p
    constructor
    · intro _
      rfl
    · intro rot h
      exact absurd h (by simp)
  | cons r rest ih =>
    intro p
    cases hopt : board.find_best_position (p.get_rotated_dimensions r).1
        (p.get_rotated_dimensions r).2 kerf with
    | some pos =>
      have hfit : fits_rot kerf board p r = true := by
        simp [fits_rot, hopt]
      have hres : (try_rotations kerf board p (r :: rest)).1 =
          some (board.add_part { p with rotation := r } pos.1 pos.2 kerf) := by
        simp only [try_rotations, get_rotated_dimensions_update]
        rw [hopt]
      constructor
      · intro hnone
        rw [List.find?_cons_of_pos _ hfit] at hnone
        exact absurd hnone (by simp)
      · intro rot hsome
        rw [List.find?_cons_of_pos _ hfit] at hsome
        have : r = rot := Option.some.inj hsome
        subst this
        exact ⟨pos.1, pos.2, hopt, hres⟩
    | none =>
      have hfit : fits_rot kerf board p r = false := by
        simp [fits_rot, hopt]
      have hstep : (try_rotations kerf board p (r :: rest)).1 =
          (try_rotations kerf board { p with rotation := r } rest).1 := by
        simp only [try_rotations, get_rotated_dimensions_update]
        rw [hopt]
      have ihp := ih { p with rotation := r }
      rw [fits_rot_update] at ihp
      constructor
      · intro hnone
        rw [List.find?_cons_of_neg _ (by simp [hfit])] at hnone
        rw [hstep]
        exact ihp.1 hnone
      · intro rot hsome
        rw [List.find?_cons_of_neg _ (by simp [hfit])] at hsome
        obtain ⟨x, y, hfind, hres⟩ := ihp.2 rot hsome
        rw [get_rotated_dimensions_update] at hfind
        rw [update_rotation_twice] at hres
        exact ⟨x, y, hfind, by rw [hstep, hres]⟩

/-- Restoring the remembered fields of a part whose only possible change is
its rotation tag yields the original part back. -/
lemma restore_fields (p pmut : Part)
    (h : pmut = p ∨ ∃ r, pmut = { p with rotation := r }) :
    ({ pmut with width := p.width, height := p.height, rotation := p.rotation } : Part)
      = p := by
  rcases h with rfl | ⟨r, rfl⟩
  · rfl
  · rfl

/-- C5: try_place_part tries the allowed rotations in list order (so 0 before
90 when both are permitted), with 90/270 swapping width and height in the fit
test; it succeeds exactly when some allowed rotation fits, commits the first
fitting rotation, and on failure returns the part and the board exactly as
they were. -/
theorem try_place_part_spec (s : Settings) (part : Part) (board : Board) :
    ((try_place_part s part board).1 = false →
      (try_place_part s part board).2.1 = part ∧
      (try_place_part s part board).2.2 = board) ∧
    ((try_place_part s part board).1 = true ↔
      part.allowed_rotations.find? (fits_rot s.kerf_width board part) ≠ none) ∧
    (∀ rot, part.allowed_rotations.find? (fits_rot s.kerf_width board part) = some rot →
      (try_place_part s part board).1 = true ∧
      (try_place_part s part board).2.1.rotation = rot) ∧
    (∀ rot : Int, (rot = 90 ∨ rot = 270) →
      part.get_rotated_dimensions rot = (part.height, part.width)) := by
  have hsnd := try_rotations_snd s.kerf_width board part.allowed_rotations part
  have hspec := try_rotations_spec s.kerf_width board part.allowed_rotations part
  rcases htr : try_rotations s.kerf_width board part part.allowed_rotations with ⟨fst, pmut⟩
  rw [htr] at hsnd hspec
  refine ⟨?_, ?_, ?_, ?_⟩
  · intro hfail
    cases fst with
    | some bp =>
      exfalso
      simp only [try_place_part, htr] at hfail
      exact Bool.noConfusion hfail
    | none =>
      simp only [try_place_part, htr]
      exact ⟨restore_fields part pmut hsnd, by trivial⟩
  · constructor
    · intro hsucc hnone
      have := hspec.1 hnone
      simp only at this
      subst this
      simp only [try_place_part, htr] at hsucc
      exact Bool.noConfusion hsucc
    · intro hne
      rcases hopt : part.allowed_rotations.find? (fits_rot s.kerf_width board part) with
        _ | rot
      · exact absurd hopt hne
      · obtain ⟨x, y, _, hres⟩ := hspec.2 rot hopt
        simp only at hres
        subst hres
        simp [try_place_part, htr]
  · intro rot hrot
    obtain ⟨x, y, _, hres⟩ := hspec.2 rot hrot
    simp only at hres
    subst hres
    constructor
    · simp [try_place_part, htr]
    · simp [try_place_part, htr, Board.add_part]
  · intro rot hrot
    simp only [Part.get_rotated_dimensions, if_pos hrot]

/-- Concrete part for the try_place_part witness: only the 90-degree footprint
fits the board below. -/
def c5_part : Part :=
  { id := "R", material := "M", width := 150, height := 50,
    grain_direction := "any", allowed_rotations := [0, 90] }

/-- Concrete board for the try_place_part witness. -/
def c5_board : Board := Board.new 1 "M" 60 160

/-- Concrete settings for the try_place_part witness. -/
def c5_settings : Settings := { kerf_width := 0 }

/-- Witness for try_place_part_spec: the first fitting rotation of the
concrete 150 by 50 part on a 60 by 160 board is 90, and it is committed. -/
theorem try_place_part_spec_witness :
    c5_part.allowed_rotations.find? (fits_rot c5_settings.kerf_width c5_board c5_part) =
      some 90 ∧
    ((try_place_part c5_settings c5_part c5_board).1 = true ∧
     (try_place_part c5_settings c5_part c5_board).2.1.rotation = 90) :=
  ⟨by with_unfolding_all rfl,
   (try_place_part_spec c5_settings c5_part c5_board).2.2.1 90
     (by with_unfolding_all rfl)⟩

lemma add_part_placed (b : Board) (p : Part) (x y kerf : ℚ) :
    (b.add_part p x y kerf).1.placed_parts =
      b.placed_parts ++ [(b.add_part p x y kerf).2] := rfl

lemma add_part_snd (b : Board) (p : Part) (x y kerf : ℚ) :
    (b.add_part p x y kerf).2 = { p with x := x, y := y, board_id := b.id } := rfl

lemma add_part_core (b : Board) (p : Part) (x y kerf : ℚ) :
    part_core (b.add_part p x y kerf).2 = part_core p := rfl

lemma add_part_width (b : Board) (p : Part) (x y kerf : ℚ) :
    (b.add_part p x y kerf).1.width = b.width := rfl

lemma add_part_height (b : Board) (p : Part) (x y kerf : ℚ) :
    (b.add_part p x y kerf).1.height = b.height := rfl

/-- Commit shape of a successful try_place_part: the result is an add_part of
the part tagged with some rotation, at a position found by
find_best_position. -/
lemma try_place_part_commit (s : Settings) (p : Part) (b : Board)
    (h : (try_place_part s p b).1 = true) :
    ∃ rot x y,
      b.find_best_position (p.get_rotated_dimensions rot).1
          (p.get_rotated_dimensions rot).2 s.kerf_width = some (x, y) ∧
      (try_place_part s p b).2.2 =
        (b.add_part { p with rotation := rot } x y s.kerf_width).1 ∧
      (try_place_part s p b).2.1 =
        (b.add_part { p with rotation := rot } x y s.kerf_width).2 := by
  have hspec := try_rotations_spec s.kerf_width b p.allowed_rotations p
  rcases htr : try_rotations s.kerf_width b p p.allowed_rotations with ⟨fst, pmut⟩
  rw [htr] at hspec
  cases fst with
  | none =>
    exfalso
    simp only [try_place_part, htr] at h
    exact Bool.noConfusion h
  | some bp =>
    rcases hopt : p.allowed_rotations.find? (fits_rot s.kerf_width b p) with _ | rot
    · have := hspec.1 hopt
      simp only at this
      exact absurd this (by simp)
    · obtain ⟨x, y, hfind, hres⟩ := hspec.2 rot hopt
      simp only at hres
      have hbp : bp = b.add_part { p with rotation := rot } x y s.kerf_width :=
        Option.some.inj hres
      refine ⟨rot, x, y, hfind, ?_, ?_⟩
      · simp only [try_place_part, htr, hbp]
      · simp only [try_place_part, htr, hbp]

/-- Failure frame of try_place_part, as a reusable helper. -/
lemma try_place_part_fail (s : Settings) (p : Part) (b : Board)
    (h : (try_place_part s p b).1 = false) :
    (try_place_part s p b).2.1 = p ∧ (try_place_part s p b).2.2 = b := by
  have hsnd := try_rotations_snd s.kerf_width b p.allowed_rotations p
  rcases htr : try_rotations s.kerf_width b p p.allowed_rotations with ⟨fst, pmut⟩
  rw [htr] at hsnd
  cases fst with
  | some bp =>
    exfalso
    simp only [try_place_part, htr] at h
    exact Bool.noConfusion h
  | none =>
    simp only [try_place_part, htr]
    exact ⟨restore_fields p pmut hsnd, by trivial⟩

/-- The board returned by try_place_part keeps the board identity fields. -/
lemma try_place_part_board_fields (s : Settings) (p : Part) (b : Board) :
    (try_place_part s p b).2.2.width = b.width ∧
    (try_place_part s p b).2.2.height = b.height := by
  cases h : (try_place_part s p b).1 with
  | true =>
    obtain ⟨rot, x, y, _, hb, _⟩ := try_place_part_commit s p b h
    rw [hb]
    exact ⟨add_part_width _ _ _ _ _, add_part_height _ _ _ _ _⟩
  | false =>
    rw [(try_place_part_fail s p b h).2]
    exact ⟨rfl, rfl⟩

/-- On success, the placed-part list grows by exactly the returned part, whose
core fields agree with the input part. -/
lemma try_place_part_succ_placed (s : Settings) (p : Part) (b : Board)
    (h : (try_place_part s p b).1 = true) :
    (try_place_part s p b).2.2.placed_parts =
      b.placed_parts ++ [(try_place_part s p b).2.1] ∧
    part_core (try_place_part s p b).2.1 = part_core p := by
  obtain ⟨rot, x, y, _, hb, hp⟩ := try_place_part_commit s p b h
  constructor
  · rw [hb, hp]
    exact add_part_placed _ _ _ _ _
  · rw [hp, add_part_core]
    rfl

lemma place_pass_fields (s : Settings) :
    ∀ (l : List Part) (b : Board),
      (place_pass s b l).1.width = b.width ∧ (place_pass s b l).1.height = b.height := by
  intro l
  induction l with
  | nil =>
    intro b
    exact ⟨rfl, rfl⟩
  | cons p rest ih =>
    intro b
    have htb := try_place_part_board_fields s p b
    have hrec := ih (try_place_part s p b).2.2
    cases hr : (try_place_part s p b).1 with
    | true =>
      simp only [place_pass, hr, cond_true]
      exact ⟨hrec.1.trans htb.1, hrec.2.trans htb.2⟩
    | false =>
      simp only [place_pass, hr, cond_false]
      exact ⟨hrec.1.trans htb.1, hrec.2.trans htb.2⟩

/-- Counting invariant of a placement pass: boards gain exactly the parts the
queue loses. -/
lemma place_pass_count (s : Settings) :
    ∀ (l : List Part) (b : Board),
      (place_pass s b l).1.placed_parts.length + (place_pass s b l).2.length =
        b.placed_parts.length + l.length := by
  intro l
  induction l with
  | nil =>
    intro b
    simp [place_pass]
  | cons p rest ih =>
    intro b
    cases hr : (try_place_part s p b).1 with
    | true =>
      have hplaced := (try_place_part_succ_placed s p b hr).1
      have hrec := ih (try_place_part s p b).2.2
      simp only [place_pass, hr, cond_true]
      rw [hrec, hplaced]
      simp only [List.length_append, List.length_cons, List.length_nil]
      omega
    | false =>
      have hrec := ih (try_place_part s p b).2.2
      rw [(try_place_part_fail s p b hr).2] at hrec
      simp only [place_pass, hr, cond_false]
      rw [(try_place_part_fail s p b hr).2]
      simp only [List.length_cons]
      omega

/-- Parts queued for the next board are exactly some of the input parts,
unchanged. -/
lemma place_pass_fails_sub (s : Settings) :
    ∀ (l : List Part) (b : Board), (place_pass s b l).2 ⊆ l := by
  intro l
  induction l with
  | nil =>
    intro b
    simp [place_pass]
  | cons p rest ih =>
    intro b
    cases hr : (try_place_part s p b).1 with
    | true =>
      simp only [place_pass, hr, cond_true]
      exact List.Subset.trans (ih (try_place_part s p b).2.2)
        (List.subset_cons_self p rest)
    | false =>
      simp only [place_pass, hr, cond_false]
      intro q hq
      rcases List.mem_cons.1 hq with rfl | hq
      · rw [(try_place_part_fail s p b hr).1]
        exact List.mem_cons_self _ _
      · exact List.mem_cons_of_mem p (ih (try_place_part s p b).2.2 hq)

/-- Decomposition of a placement pass: the board gains a list of new placed
parts, and the new parts together with the failures are a permutation of the
queue up to core fields. -/
lemma place_pass_news (s : Settings) :
    ∀ (l : List Part) (b : Board), ∃ news,
      (place_pass s b l).1.placed_parts = b.placed_parts ++ news ∧
      ((news ++ (place_pass s b l).2).map part_core).Perm (l.map part_core) := by
  intro l
  induction l with
  | nil =>
    intro b
    exact ⟨[], by simp [place_pass], by simp [place_pass]⟩
  | cons p rest ih =>
    intro b
    cases hr : (try_place_part s p b).1 with
    | true =>
      obtain ⟨hplaced, hcore⟩ := try_place_part_succ_placed s p b hr
      obtain ⟨news, hnews, hperm⟩ := ih (try_place_part s p b).2.2
      refine ⟨(try_place_part s p b).2.1 :: news, ?_, ?_⟩
      · simp only [place_pass, hr, cond_true]
        rw [hnews, hplaced]
        simp
      · simp only [place_pass, hr, cond_true]
        simp only [List.cons_append, List.map_cons]
        rw [hcore]
        exact List.Perm.cons _ hperm
    | false =>
      obtain ⟨news, hnews, hperm⟩ := ih b
      refine ⟨news, ?_, ?_⟩
      · simp only [place_pass, hr, cond_false]
        rw [(try_place_part_fail s p b hr).2]
        exact hnews
      · simp only [place_pass, hr, cond_false]
        rw [(try_place_part_fail s p b hr).1, (try_place_part_fail s p b hr).2]
        have h1 : ((news ++ p :: (place_pass s b rest).2).map part_core) =
            (news.map part_core) ++ part_core p ::
              ((place_pass s b rest).2.map part_core) := by
          simp
        rw [h1, List.map_cons]
        exact List.perm_middle.trans (List.Perm.cons _ (by simpa using hperm))

/-- A pass that places nothing leaves the board and queue unchanged. -/
lemma place_pass_placed_nil (s : Settings) :
    ∀ (l : List Part) (b : Board),
      (place_pass s b l).1.placed_parts = [] →
      b.placed_parts = [] ∧ (place_pass s b l).2 = l := by
  intro l
  induction l with
  | nil =>
    intro b h
    exact ⟨h, rfl⟩
  | cons p rest ih =>
    intro b h
    cases hr : (try_place_part s p b).1 with
    | true =>
      exfalso
      obtain ⟨news, hnews, _⟩ := place_pass_news s rest (try_place_part s p b).2.2
      have hplaced := (try_place_part_succ_placed s p b hr).1
      simp only [place_pass, hr, cond_true] at h
      rw [hnews, hplaced] at h
      simp at h
    | false =>
      simp only [place_pass, hr, cond_false] at h ⊢
      rw [(try_place_part_fail s p b hr).2] at h ⊢
      obtain ⟨hb, hfails⟩ := ih b h
      refine ⟨hb, ?_⟩
      rw [(try_place_part_fail s p b hr).1, hfails]

lemma board_loop_nil (s : Settings) (m : String) (bw bh : ℚ) (fuel bc : Nat) :
    board_loop s m bw bh fuel bc [] = ([], [], none) := by
  cases fuel <;> rfl

/-- Every board returned by the board loop has at least one placed part: an
empty board is discarded, never returned. -/
lemma board_loop_boards_nonempty (s : Settings) (m : String) (bw bh : ℚ) :
    ∀ (fuel bc : Nat) (l : List Part),
      ∀ b ∈ (board_loop s m bw bh fuel bc l).1, b.placed_parts ≠ [] := by
  intro fuel
  induction fuel with
  | zero =>
    intro bc l b hb
    cases l with
    | nil => simp [board_loop_nil] at hb
    | cons p rest => simp [board_loop] at hb
  | succ f ih =>
    intro bc l b hb
    cases l with
    | nil => simp [board_loop_nil] at hb
    | cons p rest =>
      simp only [board_loop] at hb
      by_cases hres : (place_pass s (Board.new (Int.ofNat (bc + 1)) m bw bh)
          (p :: rest)).1.placed_parts = []
      · rw [if_pos hres] at hb
        simp at hb
      · rw [if_neg hres] at hb
        rcases List.mem_cons.1 hb with rfl | hb
        · exact hres
        · exact ih (bc + 1) _ b hb

/-- The board loop returns at most one board per queued part. -/
lemma board_loop_fst_length (s : Settings) (m : String) (bw bh : ℚ) :
    ∀ (fuel bc : Nat) (l : List Part),
      (board_loop s m bw bh fuel bc l).1.length ≤ l.length := by
  intro fuel
  induction fuel with
  | zero =>
    intro bc l
    cases l with
    | nil => simp [board_loop_nil]
    | cons p rest => simp [board_loop]
  | succ f ih =>
    intro bc l
    cases l with
    | nil => simp [board_loop_nil]
    | cons p rest =>
      simp only [board_loop]
      by_cases hres : (place_pass s (Board.new (Int.ofNat (bc + 1)) m bw bh)
          (p :: rest)).1.placed_parts = []
      · rw [if_pos hres]
        simp
      · rw [if_neg hres]
        have hcount := place_pass_count s (p :: rest)
          (Board.new (Int.ofNat (bc + 1)) m bw bh)
        have hnew : (Board.new (Int.ofNat (bc + 1)) m bw bh).placed_parts.length = 0 := rfl
        have hpos : 1 ≤ (place_pass s (Board.new (Int.ofNat (bc + 1)) m bw bh)
            (p :: rest)).1.placed_parts.length := by
          rcases hplv : (place_pass s (Board.new (Int.ofNat (bc + 1)) m bw bh)
              (p :: rest)).1.placed_parts with _ | ⟨q, qs⟩
          · exact absurd hplv hres
          · simp
        have hrec := ih (bc + 1)
          (place_pass s (Board.new (Int.ofNat (bc + 1)) m bw bh) (p :: rest)).2
        simp only [List.length_cons] at hcount ⊢
        omega

/-- A diagnostic from the board loop names the head of the returned unplaced
queue together with the board dimensions. -/
lemma board_loop_diag (s : Settings) (m : String) (bw bh : ℚ) :
    ∀ (fuel bc : Nat) (l : List Part) (d : Diag),
      (board_loop s m bw bh fuel bc l).2.2 = some d →
      ∃ q rest2, (board_loop s m bw bh fuel bc l).2.1 = q :: rest2 ∧
        d.part_id = q.id ∧ d.part_width = q.width ∧ d.part_height = q.height ∧
        d.board_width = bw ∧ d.board_height = bh := by
  intro fuel
  induction fuel with
  | zero =>
    intro bc l d hd
    cases l with
    | nil => simp [board_loop_nil] at hd
    | cons p rest => simp [board_loop] at hd
  | succ f ih =>
    intro bc l d hd
    cases l with
    | nil => simp [board_loop_nil] at hd
    | cons p rest =>
      simp only [board_loop] at hd ⊢
      by_cases hres : (place_pass s (Board.new (Int.ofNat (bc + 1)) m bw bh)
          (p :: rest)).1.placed_parts = []
      · rw [if_pos hres] at hd ⊢
        have hq := place_pass_placed_nil s (p :: rest)
          (Board.new (Int.ofNat (bc + 1)) m bw bh) hres
        have hdv : d = Diag.mk p.id p.width p.height bw bh := by
          have := hd
          simp at this
          exact this.symm
        refine ⟨p, rest, ?_, ?_, ?_, ?_, ?_, ?_⟩
        · simp only [hq.2]
        · rw [hdv]
        · rw [hdv]
        · rw [hdv]
        · rw [hdv]
        · rw [hdv]
      · rw [if_neg hres] at hd ⊢
        exact ih (bc + 1) _ d hd

/-- The parts on the returned boards together with the returned unplaced queue
are a permutation of the input queue, up to core fields. -/
lemma board_loop_perm (s : Settings) (m : String) (bw bh : ℚ) :
    ∀ (fuel bc : Nat) (l : List Part),
      ((((board_loop s m bw bh fuel bc l).1.flatMap Board.placed_parts) ++
        (board_loop s m bw bh fuel bc l).2.1).map part_core).Perm
        (l.map part_core) := by
  intro fuel
  induction fuel with
  | zero =>
    intro bc l
    cases l with
    | nil => simp [board_loop_nil]
    | cons p rest => simp [board_loop]
  | succ f ih =>
    intro bc l
    cases l with
    | nil => simp [board_loop_nil]
    | cons p rest =>
      simp only [board_loop]
      by_cases hres : (place_pass s (Board.new (Int.ofNat (bc + 1)) m bw bh)
          (p :: rest)).1.placed_parts = []
      · rw [if_pos hres]
        have hq := place_pass_placed_nil s (p :: rest)
          (Board.new (Int.ofNat (bc + 1)) m bw bh) hres
        have heq : (([] : List Board).flatMap Board.placed_parts ++
            (place_pass s (Board.new (Int.ofNat (bc + 1)) m bw bh) (p :: rest)).2) =
            p :: rest := by
          rw [hq.2]
          simp
        rw [heq]
      · rw [if_neg hres]
        obtain ⟨news, hnews, hperm⟩ := place_pass_news s (p :: rest)
          (Board.new (Int.ofNat (bc + 1)) m bw bh)
        have hnews2 : (place_pass s (Board.new (Int.ofNat (bc + 1)) m bw bh)
            (p :: rest)).1.placed_parts = news := by
          rw [hnews]
          rfl
        have hih := ih (bc + 1)
          (place_pass s (Board.new (Int.ofNat (bc + 1)) m bw bh) (p :: rest)).2
        simp only [List.flatMap_cons, hnews2, List.append_assoc, List.map_append]
        refine List.Perm.trans (List.Perm.append_left (news.map part_core) ?_)
          (by simpa using hperm)
        simpa using hih

/-- Fuel irrelevance for the board loop: any fuel at least the queue length
gives the same result, so the loop needs at most one pass per part. -/
lemma board_loop_fuel (s : Settings) (m : String) (bw bh : ℚ) :
    ∀ (f1 f2 bc : Nat) (l : List Part), l.length ≤ f1 → l.length ≤ f2 →
      board_loop s m bw bh f1 bc l = board_loop s m bw bh f2 bc l := by
  intro f1
  induction f1 with
  | zero =>
    intro f2 bc l h1 h2
    have : l = [] := List.eq_nil_of_length_eq_zero (Nat.le_zero.1 h1)
    subst this
    rw [board_loop_nil, board_loop_nil]
  | succ f ih =>
    intro f2 bc l h1 h2
    cases l with
    | nil => rw [board_loop_nil, board_loop_nil]
    | cons p rest =>
      cases f2 with
      | zero => simp at h2
      | succ f2 =>
        simp only [board_loop]
        by_cases hres : (place_pass s (Board.new (Int.ofNat (bc + 1)) m bw bh)
            (p :: rest)).1.placed_parts = []
        · rw [if_pos hres, if_pos hres]
        · rw [if_neg hres, if_neg hres]
          have hcount := place_pass_count s (p :: rest)
            (Board.new (Int.ofNat (bc + 1)) m bw bh)
          have hpos : 1 ≤ (place_pass s (Board.new (Int.ofNat (bc + 1)) m bw bh)
              (p :: rest)).1.placed_parts.length := by
            rcases hplv : (place_pass s (Board.new (Int.ofNat (bc + 1)) m bw bh)
                (p :: rest)).1.placed_parts with _ | ⟨q, qs⟩
            · exact absurd hplv hres
            · simp
          have hlen : (place_pass s (Board.new (Int.ofNat (bc + 1)) m bw bh)
              (p :: rest)).2.length ≤ f ∧
              (place_pass s (Board.new (Int.ofNat (bc + 1)) m bw bh)
              (p :: rest)).2.length ≤ f2 := by
            have hnew : (Board.new (Int.ofNat (bc + 1)) m bw bh).placed_parts.length = 0 :=
              rfl
            simp only [List.length_cons] at hcount h1 h2
            omega
          rw [ih f2 (bc + 1) _ hlen.1 hlen.2]

/-- When the board loop ends without a diagnostic (given sufficient fuel),
the queue was fully placed. -/
lemma board_loop_diag_none (s : Settings) (m : String) (bw bh : ℚ) :
    ∀ (fuel bc : Nat) (l : List Part), l.length ≤ fuel →
      (board_loop s m bw bh fuel bc l).2.2 = none →
      (board_loop s m bw bh fuel bc l).2.1 = [] := by
  intro fuel
  induction fuel with
  | zero =>
    intro bc l hl _
    have : l = [] := List.eq_nil_of_length_eq_zero (Nat.le_zero.1 hl)
    subst this
    rw [board_loop_nil]
  | succ f ih =>
    intro bc l hl hd
    cases l with
    | nil => rw [board_loop_nil]
    | cons p rest =>
      simp only [board_loop] at hd ⊢
      by_cases hres : (place_pass s (Board.new (Int.ofNat (bc + 1)) m bw bh)
          (p :: rest)).1.placed_parts = []
      · rw [if_pos hres] at hd
        simp at hd
      · rw [if_neg hres] at hd ⊢
        have hcount := place_pass_count s (p :: rest)
          (Board.new (Int.ofNat (bc + 1)) m bw bh)
        have hpos : 1 ≤ (place_pass s (Board.new (Int.ofNat (bc + 1)) m bw bh)
            (p :: rest)).1.placed_parts.length := by
          rcases hplv : (place_pass s (Board.new (Int.ofNat (bc + 1)) m bw bh)
              (p :: rest)).1.placed_parts with _ | ⟨q, qs⟩
          · exact absurd hplv hres
          · simp
        refine ih (bc + 1) _ ?_ hd
        have hnew : (Board.new (Int.ofNat (bc + 1)) m bw bh).placed_parts.length = 0 :=
          rfl
        simp only [List.length_cons] at hcount hl
        omega

/-- C4: on the Unplaceable condition the empty board is discarded (no returned
board is empty), processing stops with the unplaced queue intact, a
diagnostic is surfaced naming the first remaining queued part with its
dimensions and the board dimensions (and a diagnostic is emitted whenever
parts remain unplaced), and boards completed before the failure are still
returned: every completed board stays in front of whatever the rest of the
loop returns, and a failing iteration returns no board of its own. -/
theorem nest_parts_unplaceable (s : Settings) (parts : List Part) (material : String)
    (bw bh : ℚ) :
    (∀ b ∈ (nest_parts s parts material bw bh).1, b.placed_parts ≠ []) ∧
    (∀ d, (nest_parts s parts material bw bh).2.2 = some d →
      ∃ q rest2, (nest_parts s parts material bw bh).2.1 = q :: rest2 ∧
        d.part_id = q.id ∧ d.part_width = q.width ∧ d.part_height = q.height ∧
        d.board_width = bw ∧ d.board_height = bh) ∧
    ((nest_parts s parts material bw bh).2.1 ≠ [] →
      ∃ d, (nest_parts s parts material bw bh).2.2 = some d) ∧
    (∀ (fuel bc : Nat) (p : Part) (rest : List Part),
      (place_pass s (Board.new (Int.ofNat (bc + 1)) material bw bh)
        (p :: rest)).1.placed_parts = [] →
      board_loop s material bw bh (fuel + 1) bc (p :: rest) =
        ([], p :: rest, some (Diag.mk p.id p.width p.height bw bh))) ∧
    (∀ (fuel bc : Nat) (p : Part) (rest : List Part),
      (place_pass s (Board.new (Int.ofNat (bc + 1)) material bw bh)
        (p :: rest)).1.placed_parts ≠ [] →
      (board_loop s material bw bh (fuel + 1) bc (p :: rest)).1 =
        (place_pass s (Board.new (Int.ofNat (bc + 1)) material bw bh) (p :: rest)).1 ::
        (board_loop s material bw bh fuel (bc + 1)
          (place_pass s (Board.new (Int.ofNat (bc + 1)) material bw bh)
            (p :: rest)).2).1) := by
  refine ⟨?_, ?_, ?_, ?_, ?_⟩
  · simp only [nest_parts]
    exact board_loop_boards_nonempty s material bw bh _ 0 _
  · simp only [nest_parts]
    exact board_loop_diag s material bw bh _ 0 _
  · intro hne
    rcases hd : (nest_parts s parts material bw bh).2.2 with _ | d
    · exfalso
      apply hne
      simp only [nest_parts] at hd ⊢
      exact board_loop_diag_none s material bw bh _ 0 _ (le_refl _) hd
    · exact ⟨d, rfl⟩
  · intro fuel bc p rest hres
    have hq := place_pass_placed_nil s (p :: rest)
      (Board.new (Int.ofNat (bc + 1)) material bw bh) hres
    simp only [board_loop]
    rw [if_pos hres, hq.2]
  · intro fuel bc p rest hres
    simp only [board_loop]
    rw [if_neg hres]

/-- Concrete oversized part for the Unplaceable witness. -/
def c4_part : Part :=
  { id := "B", material := "M", width := 300, height := 300,
    grain_direction := "any", allowed_rotations := [0, 90] }

/-- Concrete settings for the Unplaceable witness. -/
def c4_settings : Settings := { kerf_width := 0 }

/-- Witness for nest_parts_unplaceable: a 300 by 300 part on a 200 by 100
board produces the diagnostic naming that part and those dimensions, and its
failing first iteration returns no board and stops with the queue intact. -/
theorem nest_parts_unplaceable_witness :
    ((nest_parts c4_settings [c4_part] "M" 200 100).2.2 =
      some (Diag.mk "B" 300 300 200 100)) ∧
    (∃ q rest2, (nest_parts c4_settings [c4_part] "M" 200 100).2.1 = q :: rest2 ∧
      (Diag.mk "B" 300 300 200 100).part_id = q.id ∧
      (Diag.mk "B" 300 300 200 100).part_width = q.width ∧
      (Diag.mk "B" 300 300 200 100).part_height = q.height ∧
      (Diag.mk "B" 300 300 200 100).board_width = 200 ∧
      (Diag.mk "B" 300 300 200 100).board_height = 100) ∧
    ((place_pass c4_settings (Board.new (Int.ofNat (0 + 1)) "M" 200 100)
        (c4_part :: [])).1.placed_parts = []) ∧
    (board_loop c4_settings "M" 200 100 (0 + 1) 0 (c4_part :: []) =
      ([], c4_part :: [],
        some (Diag.mk c4_part.id c4_part.width c4_part.height 200 100))) :=
  ⟨by with_unfolding_all rfl,
   (nest_parts_unplaceable c4_settings [c4_part] "M" 200 100).2.1
     (Diag.mk "B" 300 300 200 100) (by with_unfolding_all rfl),
   by with_unfolding_all rfl,
   (nest_parts_unplaceable c4_settings [c4_part] "M" 200 100).2.2.2.1 0 0 c4_part []
     (by with_unfolding_all rfl)⟩

/-- C8: nest_parts changes only placement fields: up to reordering, the parts
held by the returned boards together with the parts left unplaced carry
exactly the input parts' id, material, width, height, grain direction and
allowed rotations. -/
theorem nest_parts_frame (s : Settings) (parts : List Part) (material : String)
    (bw bh : ℚ) :
    ((((nest_parts s parts material bw bh).1.flatMap Board.placed_parts) ++
      (nest_parts s parts material bw bh).2.1).map part_core).Perm
      (parts.map part_core) := by
  simp only [nest_parts]
  exact (board_loop_perm s material bw bh _ 0 _).trans
    ((List.perm_insertionSort _ parts).map part_core)

/-- C9: the board loop terminates within one pass per queued part: any fuel of
at least the number of parts gives the same result as nest_parts, which uses
fuel equal to the part count, and at most one board per part is returned. -/
theorem nest_parts_terminates (s : Settings) (parts : List Part) (material : String)
    (bw bh : ℚ) :
    (∀ fuel, parts.length ≤ fuel →
      board_loop s material bw bh fuel 0
        (List.insertionSort (fun a b => Part.area b ≤ Part.area a) parts) =
      nest_parts s parts material bw bh) ∧
    (nest_parts s parts material bw bh).1.length ≤ parts.length := by
  have hlen : (List.insertionSort (fun a b => Part.area b ≤ Part.area a) parts).length =
      parts.length := (List.perm_insertionSort _ parts).length_eq
  constructor
  · intro fuel hf
    simp only [nest_parts]
    exact board_loop_fuel s material bw bh fuel _ 0 _ (by rw [hlen]; exact hf)
      (le_refl _)
  · have := board_loop_fst_length s material bw bh
      (List.insertionSort (fun a b => Part.area b ≤ Part.area a) parts).length 0
      (List.insertionSort (fun a b => Part.area b ≤ Part.area a) parts)
    simp only [nest_parts]
    rw [← hlen]
    exact this

/-- Witness for nest_parts_terminates: extra fuel gives the same result on a
concrete input. -/
theorem nest_parts_terminates_witness :
    ([c4_part].length ≤ 5) ∧
    (board_loop c4_settings "M" 200 100 5 0
      (List.insertionSort (fun a b => Part.area b ≤ Part.area a) [c4_part]) =
      nest_parts c4_settings [c4_part] "M" 200 100) :=
  ⟨by simp,
   (nest_parts_terminates c4_settings [c4_part] "M" 200 100).1 5 (by simp)⟩

/-- Concrete parts, settings and result for the end-to-end claim C7. -/
def c7_part1 : Part :=
  { id := "P1", material := "M", width := 100, height := 100,
    grain_direction := "any", allowed_rotations := [0] }

/-- Second concrete part for C7. -/
def c7_part2 : Part :=
  { id := "P2", material := "M", width := 100, height := 100,
    grain_direction := "any", allowed_rotations := [0] }

/-- Settings with zero kerf for C7. -/
def c7_settings : Settings := { kerf_width := 0 }

/-- Result of nesting the two C7 parts on a 200 by 100 board. -/
def c7_result : List Board × List Part × Option Diag :=
  nest_parts c7_settings [c7_part1, c7_part2] "M" 200 100

/-- C7: two 100 by 100 parts on a 200 by 100 board with zero kerf land on one
board, at (0,0) and (100,0), and that board's waste percentage is 0. -/
theorem nest_parts_two_on_one_board :
    c7_result.1.length = 1 ∧
    c7_result.1.map (fun b => b.placed_parts.map (fun p => (p.id, p.x, p.y))) =
      [[("P1", 0, 0), ("P2", 100, 0)]] ∧
    c7_result.1.map Board.waste_percentage = [0] ∧
    c7_result.2.1 = [] :=
  ⟨by with_unfolding_all rfl, by with_unfolding_all rfl,
   by with_unfolding_all rfl, by with_unfolding_all rfl⟩

/-- Kerf-expanded rectangle occupied by a placed part: its recorded position
with the rotated dimensions grown by the kerf (the placed_rect computed in
Board::add_part). -/
def Part.placed_rect (p : Part) (kerf : ℚ) : Rect :=
  Rect.mk p.x p.y ((p.get_rotated_dimensions p.rotation).1 + kerf)
    ((p.get_rotated_dimensions p.rotation).2 + kerf)

/-- A rectangle lies entirely within a board of the given dimensions. -/
def in_bounds (bw bh : ℚ) (r : Rect) : Prop :=
  0 ≤ r.x ∧ 0 ≤ r.y ∧ r.right ≤ bw ∧ r.bottom ≤ bh

/-- Invariant of a board maintained by the nesting core: free rectangles are
valid, in bounds and pairwise disjoint; placed parts have pairwise disjoint
kerf-expanded rectangles, each disjoint from all remaining free space; and
every placed part is in bounds unless it is the board's first placed part and
its rotated dimensions match the board dimensions within the 0.1 tolerance —
exactly the condition under which the full-sheet special case of
find_best_position fires, ignoring the kerf. -/
structure BoardInv (kerf : ℚ) (b : Board) : Prop where
  free_valid : ∀ r ∈ b.free_rectangles, r.is_valid = true
  free_bounds : ∀ r ∈ b.free_rectangles, in_bounds b.width b.height r
  free_disj : b.free_rectangles.Pairwise (fun a c => intersects a c = false)
  placed_disj : b.placed_parts.Pairwise (fun p q =>
    intersects (p.placed_rect kerf) (q.placed_rect kerf) = false)
  placed_free : ∀ p ∈ b.placed_parts, ∀ r ∈ b.free_rectangles,
    intersects r (p.placed_rect kerf) = false
  placed_bounds : ∀ p ∈ b.placed_parts,
    in_bounds b.width b.height (p.placed_rect kerf) ∨
    (b.placed_parts.head? = some p ∧
     qabs ((p.get_rotated_dimensions p.rotation).1 - b.width) < 1/10 ∧
     qabs ((p.get_rotated_dimensions p.rotation).2 - b.height) < 1/10)

lemma in_bounds_within {bw bh : ℚ} {A a : Rect}
    (h : in_bounds bw bh A) (hw : rect_within A a) : in_bounds bw bh a :=
  ⟨le_trans h.1 hw.1, le_trans h.2.1 hw.2.2.1,
   le_trans hw.2.1 h.2.2.1, le_trans hw.2.2.2 h.2.2.2⟩

/-- A freshly constructed board satisfies the invariant. -/
lemma board_new_inv (id : Int) (mat : String) {w h : ℚ} (kerf : ℚ)
    (hw : 0 < w) (hh : 0 < h) : BoardInv kerf (Board.new id mat w h) := by
  refine ⟨?_, ?_, ?_, ?_, ?_, ?_⟩
  · intro r hr
    simp only [Board.new] at hr
    simp at hr
    subst hr
    rw [is_valid_iff]
    exact ⟨hw, hh⟩
  · intro r hr
    simp only [Board.new] at hr
    simp at hr
    subst hr
    refine ⟨le_refl _, le_refl _, ?_, ?_⟩ <;>
      simp [Rect.right, Rect.bottom, Board.new]
  · simp [Board.new]
  · simp [Board.new]
  · intro p hp
    simp [Board.new] at hp
  · intro p hp
    simp [Board.new] at hp

lemma branch_within {fr P a : Rect}
    (ha : a ∈ (if intersects fr P then
      (subtract_rect fr P).filter (fun r => r.is_valid) else [fr])) :
    rect_within fr a := by
  split at ha
  · exact subtract_rect_within fr P a (List.mem_of_mem_filter ha)
  · simp at ha
    subst ha
    exact rect_within_refl _

/-- Membership facts about the free-rectangle update: every output rectangle
comes from (and is contained in) some input rectangle, is valid, and is
disjoint from the placed region. -/
lemma update_free_spec {free : List Rect} {P : Rect}
    (hval : ∀ r ∈ free, r.is_valid = true) (hP : P.is_valid = true) :
    (∀ r ∈ update_free free P, ∃ fr ∈ free, rect_within fr r) ∧
    (∀ r ∈ update_free free P, r.is_valid = true) ∧
    (∀ r ∈ update_free free P, intersects r P = false) := by
  refine ⟨?_, ?_, ?_⟩
  · intro r hr
    obtain ⟨fr, hfr, hmem⟩ := List.mem_flatMap.1 hr
    exact ⟨fr, hfr, branch_within hmem⟩
  · intro r hr
    obtain ⟨fr, hfr, hmem⟩ := List.mem_flatMap.1 hr
    split at hmem
    · exact (List.mem_filter.1 hmem).2
    · simp at hmem
      subst hmem
      exact hval _ hfr
  · intro r hr
    obtain ⟨fr, hfr, hmem⟩ := List.mem_flatMap.1 hr
    by_cases hint : intersects fr P = true
    · rw [if_pos hint] at hmem
      obtain ⟨hx, hy⟩ := inter_nonempty_of_intersects (hval fr hfr) hP hint
      exact subtract_rect_disj_cut hx hy r (List.mem_of_mem_filter hmem)
    · rw [if_neg hint] at hmem
      simp at hmem
      subst hmem
      exact Bool.eq_false_iff.2 hint

/-- The free-rectangle update preserves pairwise disjointness. -/
lemma update_free_pairwise {free : List Rect} {P : Rect}
    (hval : ∀ r ∈ free, r.is_valid = true) (hP : P.is_valid = true)
    (hdisj : free.Pairwise (fun a c => intersects a c = false)) :
    (update_free free P).Pairwise (fun a c => intersects a c = false) := by
  induction free with
  | nil => simp [update_free]
  | cons fr rest ih =>
    have hvrest : ∀ r ∈ rest, r.is_valid = true :=
      fun r hr => hval r (List.mem_cons_of_mem fr hr)
    rw [List.pairwise_cons] at hdisj
    have hupd : update_free (fr :: rest) P =
        (if intersects fr P then
          (subtract_rect fr P).filter (fun r => r.is_valid) else [fr]) ++
        update_free rest P := by
      simp [update_free]
    rw [hupd, List.pairwise_append]
    refine ⟨?_, ih hvrest hdisj.2, ?_⟩
    · by_cases hint : intersects fr P = true
      · rw [if_pos hint]
        obtain ⟨hx, hy⟩ := inter_nonempty_of_intersects (hval fr (by simp)) hP hint
        exact (pieces_pairwise hx hy).sublist
          ((List.filter_sublist _).trans (subtract_rect_sublist_pieces hx hy))
      · rw [if_neg hint]
        simp
    · intro a ha c hc
      obtain ⟨fr2, hfr2, hc2⟩ := List.mem_flatMap.1 hc
      exact disj_mono (branch_within ha) (branch_within hc2) (hdisj.1 fr2 hfr2)

lemma add_part_placed_rect (b : Board) (p : Part) (x y kerf : ℚ) :
    ((b.add_part p x y kerf).2).placed_rect kerf =
      Rect.mk x y ((p.get_rotated_dimensions p.rotation).1 + kerf)
        ((p.get_rotated_dimensions p.rotation).2 + kerf) := rfl

lemma add_part_free (b : Board) (p : Part) (x y kerf : ℚ) :
    (b.add_part p x y kerf).1.free_rectangles =
      List.insertionSort (fun a c => rect_before a c = true)
        (update_free b.free_rectangles
          (Rect.mk x y ((p.get_rotated_dimensions p.rotation).1 + kerf)
            ((p.get_rotated_dimensions p.rotation).2 + kerf))) := rfl

lemma add_part_snd_dims (b : Board) (p : Part) (x y kerf : ℚ) :
    ((b.add_part p x y kerf).2).get_rotated_dimensions
        ((b.add_part p x y kerf).2).rotation =
      p.get_rotated_dimensions p.rotation := rfl

/-- When the placed region is disjoint from every free rectangle, the
free-rectangle update is the identity. -/
lemma update_free_of_disjoint {free : List Rect} {P : Rect}
    (h : ∀ fr ∈ free, intersects fr P = false) : update_free free P = free := by
  induction free with
  | nil => rfl
  | cons fr rest ih =>
    have hfr := h fr (by simp)
    have hrest : ∀ r ∈ rest, intersects r P = false :=
      fun r hr => h r (List.mem_cons_of_mem fr hr)
    have hupd : update_free (fr :: rest) P =
        (if intersects fr P then
          (subtract_rect fr P).filter (fun r => r.is_valid) else [fr]) ++
        update_free rest P := by
      simp [update_free]
    rw [hupd, if_neg (by simp [hfr]), ih hrest]
    rfl

/-- Combined facts about the free-rectangle update, valid both for a valid
placed region and for a (possibly degenerate) one already disjoint from all
free rectangles. -/
lemma update_facts {free : List Rect} {P : Rect} {bw bh : ℚ}
    (hval : ∀ r ∈ free, r.is_valid = true)
    (hbnd : ∀ r ∈ free, in_bounds bw bh r)
    (hdisj : free.Pairwise (fun a c => intersects a c = false))
    (hgood : P.is_valid = true ∨ ∀ r ∈ free, intersects r P = false) :
    (∀ r ∈ update_free free P, ∃ fr ∈ free, rect_within fr r) ∧
    (∀ r ∈ update_free free P, r.is_valid = true) ∧
    (∀ r ∈ update_free free P, intersects r P = false) ∧
    (∀ r ∈ update_free free P, in_bounds bw bh r) ∧
    (update_free free P).Pairwise (fun a c => intersects a c = false) := by
  rcases hgood with hP | hnone
  · have hspec := @update_free_spec free P hval hP
    refine ⟨hspec.1, hspec.2.1, hspec.2.2, ?_, update_free_pairwise hval hP hdisj⟩
    intro r hr
    obtain ⟨fr, hfr, hw⟩ := hspec.1 r hr
    exact in_bounds_within (hbnd fr hfr) hw
  · rw [update_free_of_disjoint hnone]
    exact ⟨fun r hr => ⟨r, hr, rect_within_refl r⟩, hval, hnone, hbnd, hdisj⟩

/-- Case analysis of a successful find_best_position: either the full-sheet
special case fired on an empty board at (0,0) with the 0.1-tolerance match,
or some free rectangle accommodates the kerf-expanded size within board
bounds. -/
lemma find_best_position_cases {b : Board} {pw ph kerf x y : ℚ}
    (h : b.find_best_position pw ph kerf = some (x, y)) :
    (b.placed_parts = [] ∧ x = 0 ∧ y = 0 ∧ qabs (pw - b.width) < 1/10 ∧
      qabs (ph - b.height) < 1/10) ∨
    (∃ fr ∈ b.free_rectangles, fr.x = x ∧ fr.y = y ∧ pw + kerf ≤ fr.width ∧
      ph + kerf ≤ fr.height ∧ x + (pw + kerf) ≤ b.width ∧
      y + (ph + kerf) ≤ b.height) := by
  rw [Board.find_best_position] at h
  by_cases hsp : b.placed_parts = [] ∧ qabs (pw - b.width) < 1/10 ∧
      qabs (ph - b.height) < 1/10
  · rw [if_pos hsp] at h
    have hxy := Option.some.inj h
    left
    exact ⟨hsp.1, (congrArg Prod.fst hxy).symm, (congrArg Prod.snd hxy).symm,
      hsp.2.1, hsp.2.2⟩
  · rw [if_neg hsp] at h
    obtain ⟨fr, hmem, hfx, hfy, h1, h2, h3, h4⟩ := find_pos_loop_some h
    right
    refine ⟨fr, hmem, hfx, hfy, h1, h2, ?_, ?_⟩
    · rw [← hfx]
      exact h3
    · rw [← hfy]
      exact h4

/-- Board::add_part preserves the board invariant whenever the position came
from find_best_position — with no assumption on the part dimensions or the
kerf sign: a degenerate placed region never intersects the free space it was
drawn from, so the update is then the identity. -/
lemma add_part_inv {kerf : ℚ} {b : Board} {p : Part} {x y : ℚ}
    (hinv : BoardInv kerf b)
    (hfind : b.find_best_position (p.get_rotated_dimensions p.rotation).1
      (p.get_rotated_dimensions p.rotation).2 kerf = some (x, y)) :
    BoardInv kerf (b.add_part p x y kerf).1 := by
  have hsym : ∀ {a c : Rect}, intersects a c = false → intersects c a = false :=
    fun h => disj_symm h
  have hsymm : Symmetric (fun a c : Rect => intersects a c = false) :=
    fun a c h => disj_symm h
  have hperm : (b.add_part p x y kerf).1.free_rectangles.Perm
      (update_free b.free_rectangles
        (Rect.mk x y ((p.get_rotated_dimensions p.rotation).1 + kerf)
          ((p.get_rotated_dimensions p.rotation).2 + kerf))) := by
    rw [add_part_free]
    exact List.perm_insertionSort _ _
  have hmemnew : ∀ r ∈ (b.add_part p x y kerf).1.free_rectangles,
      r ∈ update_free b.free_rectangles
        (Rect.mk x y ((p.get_rotated_dimensions p.rotation).1 + kerf)
          ((p.get_rotated_dimensions p.rotation).2 + kerf)) :=
    fun r hr => hperm.mem_iff.1 hr
  have hplaced_new : (b.add_part p x y kerf).1.placed_parts =
      b.placed_parts ++ [(b.add_part p x y kerf).2] := add_part_placed b p x y kerf
  have hnew_rect := add_part_placed_rect b p x y kerf
  have hcases := find_best_position_cases hfind
  have hwithin_norm : ∀ fr ∈ b.free_rectangles, fr.x = x → fr.y = y →
      (p.get_rotated_dimensions p.rotation).1 + kerf ≤ fr.width →
      (p.get_rotated_dimensions p.rotation).2 + kerf ≤ fr.height →
      rect_within fr (Rect.mk x y ((p.get_rotated_dimensions p.rotation).1 + kerf)
        ((p.get_rotated_dimensions p.rotation).2 + kerf)) := by
    intro fr _ hfx hfy hfw hfh
    refine ⟨le_of_eq hfx, ?_, le_of_eq hfy, ?_⟩
    · simp only [Rect.right]
      rw [← hfx]
      linarith
    · simp only [Rect.bottom]
      rw [← hfy]
      linarith
  have hgood : (Rect.mk x y ((p.get_rotated_dimensions p.rotation).1 + kerf)
        ((p.get_rotated_dimensions p.rotation).2 + kerf)).is_valid = true ∨
      ∀ r ∈ b.free_rectangles, intersects r
        (Rect.mk x y ((p.get_rotated_dimensions p.rotation).1 + kerf)
          ((p.get_rotated_dimensions p.rotation).2 + kerf)) = false := by
    by_cases hPv : (Rect.mk x y ((p.get_rotated_dimensions p.rotation).1 + kerf)
        ((p.get_rotated_dimensions p.rotation).2 + kerf)).is_valid = true
    · exact Or.inl hPv
    · right
      have hdeg : (p.get_rotated_dimensions p.rotation).1 + kerf ≤ 0 ∨
          (p.get_rotated_dimensions p.rotation).2 + kerf ≤ 0 := by
        have hnot : ¬(0 < (p.get_rotated_dimensions p.rotation).1 + kerf ∧
            0 < (p.get_rotated_dimensions p.rotation).2 + kerf) :=
          fun hc => hPv ((is_valid_iff _).2 ⟨hc.1, hc.2⟩)
        rcases not_and_or.1 hnot with h | h
        · exact Or.inl (not_lt.1 h)
        · exact Or.inr (not_lt.1 h)
      intro r hr
      rcases hcases with ⟨_, hx0, hy0, _, _⟩ | ⟨fr, hfrmem, hfx, hfy, hfw, hfh, _, _⟩
      · -- special case: the region hangs off the origin corner
        subst hx0
        subst hy0
        have hb := hinv.free_bounds r hr
        rw [intersects_eq_false_iff]
        rcases hdeg with h | h
        · right; left
          simp only [Rect.right]
          linarith [hb.1]
        · right; right; right
          simp only [Rect.bottom]
          linarith [hb.2.1]
      · -- normal case: the region sits at the corner of its source rectangle
        by_cases hrfr : r = fr
        · subst hrfr
          rw [intersects_eq_false_iff]
          rcases hdeg with h | h
          · right; left
            simp only [Rect.right]
            rw [hfx]
            linarith
          · right; right; right
            simp only [Rect.bottom]
            rw [hfy]
            linarith
        · have hfr_r : intersects fr r = false :=
            hinv.free_disj.forall hsymm hfrmem hr (fun he => hrfr he.symm)
          exact disj_mono (rect_within_refl r)
            (hwithin_norm fr hfrmem hfx hfy hfw hfh) (disj_symm hfr_r)
  have hfacts := @update_facts b.free_rectangles
    (Rect.mk x y ((p.get_rotated_dimensions p.rotation).1 + kerf)
      ((p.get_rotated_dimensions p.rotation).2 + kerf)) b.width b.height
    hinv.free_valid hinv.free_bounds hinv.free_disj hgood
  refine ⟨?_, ?_, ?_, ?_, ?_, ?_⟩
  · -- free rectangles valid
    intro r hr
    exact hfacts.2.1 r (hmemnew r hr)
  · -- free rectangles in bounds
    intro r hr
    rw [add_part_width, add_part_height]
    exact hfacts.2.2.2.1 r (hmemnew r hr)
  · -- free rectangles pairwise disjoint
    exact (hperm.pairwise_iff hsym).2 hfacts.2.2.2.2
  · -- placed parts pairwise disjoint
    rw [hplaced_new, List.pairwise_append]
    refine ⟨hinv.placed_disj, by simp, ?_⟩
    intro q hq z hz
    have hzq : z = (b.add_part p x y kerf).2 := by simpa using hz
    subst hzq
    rcases hcases with ⟨hemp, _, _, _, _⟩ | ⟨fr, hfrmem, hfx, hfy, hfw, hfh, _, _⟩
    · rw [hemp] at hq
      simp at hq
    · have hqfr := hinv.placed_free q hq fr hfrmem
      rw [hnew_rect]
      exact disj_mono (rect_within_refl _)
        (hwithin_norm fr hfrmem hfx hfy hfw hfh) (disj_symm hqfr)
  · -- placed parts disjoint from free space
    intro q hq r hr
    rw [hplaced_new] at hq
    rcases List.mem_append.1 hq with hq | hq
    · obtain ⟨fr, hfr, hwithin⟩ := hfacts.1 r (hmemnew r hr)
      exact disj_mono hwithin (rect_within_refl _) (hinv.placed_free q hq fr hfr)
    · have hqz : q = (b.add_part p x y kerf).2 := by simpa using hq
      subst hqz
      rw [hnew_rect]
      exact hfacts.2.2.1 r (hmemnew r hr)
  · -- each placed part in bounds, or the board head under the full-sheet
    -- tolerance
    intro q hq
    rw [hplaced_new] at hq
    rcases List.mem_append.1 hq with hq | hq
    · rcases hinv.placed_bounds q hq with hin | ⟨hhead, ht1, ht2⟩
      · left
        rw [add_part_width, add_part_height]
        exact hin
      · right
        refine ⟨?_, ?_, ?_⟩
        · rw [hplaced_new]
          rcases hbp : b.placed_parts with _ | ⟨q0, qs⟩
          · rw [hbp] at hq
            simp at hq
          · rw [hbp] at hhead
            simpa using hhead
        · rw [add_part_width]
          exact ht1
        · rw [add_part_height]
          exact ht2
    · have hqz : q = (b.add_part p x y kerf).2 := by simpa using hq
      subst hqz
      rcases hcases with ⟨hemp, _, _, ht1, ht2⟩ |
        ⟨fr, hfrmem, hfx, hfy, hfw, hfh, hbw2, hbh2⟩
      · right
        refine ⟨?_, ?_, ?_⟩
        · rw [hplaced_new, hemp]
          rfl
        · rw [add_part_width, add_part_snd_dims]
          exact ht1
        · rw [add_part_height, add_part_snd_dims]
          exact ht2
      · left
        rw [add_part_width, add_part_height, hnew_rect]
        have hb := hinv.free_bounds fr hfrmem
        refine ⟨?_, ?_, ?_, ?_⟩
        · rw [← hfx]
          exact hb.1
        · rw [← hfy]
          exact hb.2.1
        · simpa [Rect.right] using hbw2
        · simpa [Rect.bottom] using hbh2

/-- try_place_part preserves the board invariant, whatever its outcome. -/
lemma try_place_part_inv (s : Settings) (p : Part) (b : Board)
    (hinv : BoardInv s.kerf_width b) :
    BoardInv s.kerf_width (try_place_part s p b).2.2 := by
  cases h : (try_place_part s p b).1 with
  | false =>
    rw [(try_place_part_fail s p b h).2]
    exact hinv
  | true =>
    obtain ⟨rot, x, y, hfind, hb, _⟩ := try_place_part_commit s p b h
    rw [hb]
    exact add_part_inv hinv hfind

lemma place_pass_fst_cons (s : Settings) (b : Board) (p : Part) (rest : List Part) :
    (place_pass s b (p :: rest)).1 = (place_pass s (try_place_part s p b).2.2 rest).1 := by
  cases h : (try_place_part s p b).1 with
  | true => simp only [place_pass, h, cond_true]
  | false => simp only [place_pass, h, cond_false]

/-- A placement pass preserves the board invariant. -/
lemma place_pass_inv (s : Settings) :
    ∀ (l : List Part) (b : Board), BoardInv s.kerf_width b →
      BoardInv s.kerf_width (place_pass s b l).1 := by
  intro l
  induction l with
  | nil =>
    intro b hinv
    exact hinv
  | cons p rest ih =>
    intro b hinv
    rw [place_pass_fst_cons]
    exact ih _ (try_place_part_inv s p b hinv)

/-- Every board returned by the board loop satisfies the board invariant. -/
lemma board_loop_inv (s : Settings) (m : String) {bw bh : ℚ}
    (hbw : 0 < bw) (hbh : 0 < bh) :
    ∀ (fuel bc : Nat) (l : List Part),
      ∀ b ∈ (board_loop s m bw bh fuel bc l).1, BoardInv s.kerf_width b := by
  intro fuel
  induction fuel with
  | zero =>
    intro bc l b hb
    cases l with
    | nil => simp [board_loop_nil] at hb
    | cons p rest => simp [board_loop] at hb
  | succ f ih =>
    intro bc l b hb
    cases l with
    | nil => simp [board_loop_nil] at hb
    | cons p rest =>
      simp only [board_loop] at hb
      by_cases hres : (place_pass s (Board.new (Int.ofNat (bc + 1)) m bw bh)
          (p :: rest)).1.placed_parts = []
      · rw [if_pos hres] at hb
        simp at hb
      · rw [if_neg hres] at hb
        rcases List.mem_cons.1 hb with rfl | hb
        · exact place_pass_inv s (p :: rest) _
            (board_new_inv (Int.ofNat (bc + 1)) m s.kerf_width hbw hbh)
        · exact ih (bc + 1) _ b hb

/-- C1 (amended): for every call of nest_parts with positive board width and
height, every returned board has pairwise non-intersecting kerf-expanded
placed rectangles; each placed part's kerf-expanded rectangle lies within the
board's bounds unless that part is the board's first placed part and its
rotated dimensions match the board dimensions within the 0.1 tolerance —
exactly the full-sheet special case, which ignores the kerf; and the free
rectangles are always valid and pairwise disjoint — also directly after every
add_part whose position came from find_best_position on a board satisfying
the invariant. -/
theorem nest_parts_invariants (s : Settings) (parts : List Part) (material : String)
    (bw bh : ℚ) (hbw : 0 < bw) (hbh : 0 < bh) :
    (∀ b ∈ (nest_parts s parts material bw bh).1,
      b.placed_parts.Pairwise (fun p q =>
        intersects (p.placed_rect s.kerf_width) (q.placed_rect s.kerf_width) = false) ∧
      (∀ p ∈ b.placed_parts,
        in_bounds b.width b.height (p.placed_rect s.kerf_width) ∨
        (b.placed_parts.head? = some p ∧
         qabs ((p.get_rotated_dimensions p.rotation).1 - b.width) < 1/10 ∧
         qabs ((p.get_rotated_dimensions p.rotation).2 - b.height) < 1/10)) ∧
      (∀ r ∈ b.free_rectangles, r.is_valid = true) ∧
      b.free_rectangles.Pairwise (fun a c => intersects a c = false)) ∧
    (∀ (b : Board) (p : Part) (x y : ℚ), BoardInv s.kerf_width b →
      b.find_best_position (p.get_rotated_dimensions p.rotation).1
        (p.get_rotated_dimensions p.rotation).2 s.kerf_width = some (x, y) →
      (∀ r ∈ (b.add_part p x y s.kerf_width).1.free_rectangles, r.is_valid = true) ∧
      (b.add_part p x y s.kerf_width).1.free_rectangles.Pairwise
        (fun a c => intersects a c = false)) := by
  constructor
  · intro b hb
    have hinv := board_loop_inv s material hbw hbh _ 0 _ b
      (by simpa [nest_parts] using hb)
    exact ⟨hinv.placed_disj, hinv.placed_bounds, hinv.free_valid, hinv.free_disj⟩
  · intro b p x y hinv hfind
    have := add_part_inv hinv hfind
    exact ⟨this.free_valid, this.free_disj⟩

/-- Concrete full-sheet part for the C1 counterexample. -/
def c1_part : Part :=
  { id := "P1", material := "M", width := 100, height := 50,
    grain_direction := "any", allowed_rotations := [0] }

/-- Settings with the default kerf of 3 for the C1 counterexample. -/
def c1_settings : Settings := { kerf_width := 3 }

/-- Result of nesting the full-sheet part with kerf 3 on a 100 by 50 board. -/
def c1_result : List Board × List Part × Option Diag :=
  nest_parts c1_settings [c1_part] "M" 100 50

/-- Counterexample to C1 as stated: with kerf 3, the full-sheet special case
places a 100 by 50 part at (0,0) on a 100 by 50 board, and its kerf-expanded
rectangle (103 by 53) does not lie within the board bounds. -/
theorem nest_parts_bounds_counterexample :
    ∃ b ∈ c1_result.1, ∃ p ∈ b.placed_parts,
      ¬ in_bounds b.width b.height (p.placed_rect c1_settings.kerf_width) := by
  have hres : c1_result.1 = [Board.mk 1 "M" 100 50 []
      [Part.mk "P1" "M" 100 50 "any" [0] 0 0 0 1]] := by
    with_unfolding_all rfl
  rw [hres]
  refine ⟨Board.mk 1 "M" 100 50 [] [Part.mk "P1" "M" 100 50 "any" [0] 0 0 0 1],
    by simp, Part.mk "P1" "M" 100 50 "any" [0] 0 0 0 1, by simp, ?_⟩
  intro hcontra
  have h3 := hcontra.2.2.1
  simp only [Part.placed_rect, Part.get_rotated_dimensions, Rect.right] at h3
  norm_num [c1_settings] at h3

/-- Witness for nest_parts_invariants at a concrete input, discharging the
positive board dimension hypotheses. -/
theorem nest_parts_invariants_witness :
    (0:ℚ) < 200 ∧ (0:ℚ) < 100 ∧
    ((∀ b ∈ (nest_parts c7_settings [c7_part1, c7_part2] "M" 200 100).1,
      b.placed_parts.Pairwise (fun p q =>
        intersects (p.placed_rect c7_settings.kerf_width)
          (q.placed_rect c7_settings.kerf_width) = false) ∧
      (∀ p ∈ b.placed_parts,
        in_bounds b.width b.height (p.placed_rect c7_settings.kerf_width) ∨
        (b.placed_parts.head? = some p ∧
         qabs ((p.get_rotated_dimensions p.rotation).1 - b.width) < 1/10 ∧
         qabs ((p.get_rotated_dimensions p.rotation).2 - b.height) < 1/10)) ∧
      (∀ r ∈ b.free_rectangles, r.is_valid = true) ∧
      b.free_rectangles.Pairwise (fun a c => intersects a c = false)) ∧
    (∀ (b : Board) (p : Part) (x y : ℚ), BoardInv c7_settings.kerf_width b →
      b.find_best_position (p.get_rotated_dimensions p.rotation).1
        (p.get_rotated_dimensions p.rotation).2 c7_settings.kerf_width = some (x, y) →
      (∀ r ∈ (b.add_part p x y c7_settings.kerf_width).1.free_rectangles,
        r.is_valid = true) ∧
      (b.add_part p x y c7_settings.kerf_width).1.free_rectangles.Pairwise
        (fun a c => intersects a c = false))) :=
  ⟨by norm_num, by norm_num,
   nest_parts_invariants c7_settings [c7_part1, c7_part2] "M" 200 100
     (by norm_num) (by norm_num)⟩

end AutoNestCut
